import Mathlib

/-!
Verification of the branching conversation graph engine of the
SillyTavern-Timelines server plugin (`src/server-plugin/index.js`).

The engine is shallowly embedded: each JavaScript function of the graph
engine is translated into an executable Lean definition.  JavaScript
numbers that always hold 32-bit integer patterns are modelled as `Nat`
reduced modulo `2 ^ 32`; `Math.random` is modelled as an ambient stream
`Nat → ℚ` of values together with a consumption counter threaded through
the state; JavaScript `undefined`/`null` string fields are modelled with
`Option String`; the `TypeError` thrown by `buildGraph` on an empty
transposed chat list is modelled by an `Option` result.

Modelling notes, valid for the whole file:
* JavaScript object iteration order is insertion order for non-integer-like
  string keys.  Chat file names always contain a dot, so association lists
  in insertion order model the objects keyed by file name exactly.  Group
  keys are message texts; the embedding uses insertion order there as
  well, which matches the source whenever no message text is an
  integer-like string (all theorems below are order-insensitive, and all
  concrete inputs use non-integer-like texts).
* `String.charCodeAt` yields UTF-16 code units; the embedding uses the
  code points of the Lean string, which agrees for texts in the Basic
  Multilingual Plane.
-/

/-! ### Small JavaScript-flavoured helpers -/

/-- `Array.prototype.indexOf`, result `-1` when absent. -/
def jsIndexOfAux (l : List String) (x : String) (i : Nat) : Int :=
  match l with
  | [] => -1
  | y :: t => if y = x then (i : Int) else jsIndexOfAux t x (i + 1)

/-- `allSwipes.indexOf(swipeText)` etc. -/
def jsIndexOf (l : List String) (x : String) : Int :=
  jsIndexOfAux l x 0

/-- `[...new Set(xs)]`: deduplication keeping first occurrences, in order. -/
def jsSetDedup (l : List String) : List String :=
  l.foldl (fun acc x => if acc.contains x then acc else acc ++ [x]) []

/-- Boolean prefix test on character lists, used by the regex model. -/
def prefixMatch : List Char → List Char → Bool
  | [], _ => true
  | _ :: _, [] => false
  | p :: ps, c :: cs => p == c && prefixMatch ps cs

/-- Does `pat` occur as a substring?  (Left-to-right scan.) -/
def hasSubstring (pat : List Char) : List Char → Bool
  | [] => prefixMatch pat []
  | c :: rest => prefixMatch pat (c :: rest) || hasSubstring pat rest

/-- `String.prototype.includes`. -/
def strContains (s pat : String) : Bool :=
  hasSubstring pat.data s.data

/-- JavaScript template-literal rendering of a string that may be `null`
(`none` renders as `"null"`), as in `` `${bookmarkName}.jsonl` ``. -/
def jsShowOpt (s : Option String) : String :=
  match s with
  | some v => v
  | none => "null"

/-- First-occurrence lookup in an association list (JS property read). -/
def lookupA {α : Type} (m : List (String × α)) (k : String) : Option α :=
  match m with
  | [] => none
  | (k', v) :: t => if k' = k then some v else lookupA t k

/-- JS property write `m[k] = v`: update the existing entry in place,
otherwise append a new one (insertion order of objects). -/
def assocSet {α : Type} (m : List (String × α)) (k : String) (v : α) :
    List (String × α) :=
  match m with
  | [] => [(k, v)]
  | (k', v') :: t => if k' = k then (k', v) :: t else (k', v') :: assocSet t k v

/-- JS in-place field update `m[k] = f(m[k])` for an existing key
(no effect when the key is absent). -/
def assocModify {α : Type} (m : List (String × α)) (k : String) (f : α → α) :
    List (String × α) :=
  match m with
  | [] => []
  | (k', v') :: t =>
    if k' = k then (k', f v') :: t else (k', v') :: assocModify t k f

/-- `Object.prototype.hasOwnProperty`. -/
def hasKey {α : Type} (m : List (String × α)) (k : String) : Bool :=
  match m with
  | [] => false
  | (k', _) :: t => k' = k || hasKey t k

/-- Lazy capture of `(.*?)` up to a closing double quote: the shortest
prefix before a `'"'`.  JS `.` does not match line terminators, so the
capture fails when a newline (or the end of the string) comes first. -/
def captureQuoted : List Char → Option (List Char)
  | [] => none
  | c :: cs =>
    if c == '"' then some []
    else if c == '\n' || c == '\r' then none
    else (captureQuoted cs).map (fun r => c :: r)

/-- The literal part of the legacy-bookmark regex `/file_name=\"(.*?)\"/`. -/
def bookmarkPat : List Char := "file_name=\"".data

/-- Scan for the first position where the regex `/file_name=\"(.*?)\"/`
matches, returning the captured group. -/
def scanBookmark : List Char → Option (List Char)
  | [] => none
  | c :: rest =>
    if prefixMatch bookmarkPat (c :: rest) then
      match captureQuoted ((c :: rest).drop bookmarkPat.length) with
      | some cap => some cap
      | none => scanBookmark rest
    else scanBookmark rest

/-- `message.mes.match(/file_name=\"(.*?)\"/)`: the captured target name,
`none` when the regex does not match (JS `null`). -/
def extractBookmarkName (s : String) : Option String :=
  (scanBookmark s.data).map (fun cs => String.mk cs)

/-- Left-to-right global replacement of CR-LF by LF on characters. -/
def replaceCRLF : List Char → List Char
  | [] => []
  | '\r' :: '\n' :: rest => '\n' :: replaceCRLF rest
  | c :: rest => c :: replaceCRLF rest

/-- Newline normalization `message.mes.replace(/\r\n/g, '\n')`. -/
def normalizeNewlines (s : String) : String :=
  (replaceCRLF s.data).asString

/-- Truthiness of `extra.bookmark_link` (`undefined`/`null`/`""` falsy). -/
def linkTruthy (l : Option String) : Bool :=
  match l with
  | none => false
  | some s => s ≠ ""

/-- Insertion sort on strings (the result of `Array.prototype.sort` with
the default UTF-16 lexicographic comparator, on a duplicate-free array). -/
def insertSorted (x : String) : List String → List String
  | [] => [x]
  | y :: t => if x ≤ y then x :: y :: t else y :: insertSorted x t

/-- Sorting used for the root node's character-name list. -/
def sortStrings : List String → List String
  | [] => []
  | x :: t => insertSorted x (sortStrings t)

/-! ### The seedable RNG: `cyrb128` and `sfc32`

All values are unsigned 32-bit patterns carried as `Nat < 2 ^ 32`;
JS `|0`, `Math.imul`, `^`, `>>>`, `<<` on int32 patterns are congruent to
the corresponding operations modulo `2 ^ 32`. -/

/-- Truncation to an unsigned 32-bit pattern (JS `|0` / `>>> 0`). -/
def u32 (n : Nat) : Nat := n % 4294967296

/-- `Math.imul` on unsigned 32-bit patterns. -/
def imul32 (a b : Nat) : Nat := u32 (a * b)

/-- One character step of the `cyrb128` accumulation loop.
`h4` is assigned last and therefore sees the freshly assigned `h1`. -/
def cyrb128Step (h : Nat × Nat × Nat × Nat) (k : Nat) : Nat × Nat × Nat × Nat :=
  let (h1, h2, h3, h4) := h
  let h1n := Nat.xor h2 (imul32 (Nat.xor h1 k) 597399067)
  let h2n := Nat.xor h3 (imul32 (Nat.xor h2 k) 2869860233)
  let h3n := Nat.xor h4 (imul32 (Nat.xor h3 k) 951274213)
  let h4n := Nat.xor h1n (imul32 (Nat.xor h4 k) 2716044179)
  (h1n, h2n, h3n, h4n)

/-- 128-bit hash `cyrb128` over the char codes of the input. -/
def cyrb128 (codes : List Nat) : Nat × Nat × Nat × Nat :=
  let h := codes.foldl cyrb128Step (1779033703, 3144134277, 1013904242, 2773480762)
  let (h1, h2, h3, h4) := h
  let h1a := imul32 (Nat.xor h3 (h1 / 2 ^ 18)) 597399067
  let h2a := imul32 (Nat.xor h4 (h2 / 2 ^ 22)) 2869860233
  let h3a := imul32 (Nat.xor h1a (h3 / 2 ^ 17)) 951274213
  let h4a := imul32 (Nat.xor h2a (h4 / 2 ^ 19)) 2716044179
  let h1b := Nat.xor h1a (Nat.xor h2a (Nat.xor h3a h4a))
  let h2b := Nat.xor h2a h1b
  let h3b := Nat.xor h3a h1b
  let h4b := Nat.xor h4a h1b
  (u32 h1b, u32 h2b, u32 h3b, u32 h4b)

/-- State of the `sfc32` generator. -/
structure Sfc32 where
  a : Nat
  b : Nat
  c : Nat
  d : Nat
deriving Repr, DecidableEq

/-- One step of `sfc32`; the first component is the 32-bit output `t`
before division by `2 ^ 32`. -/
def sfc32Next (st : Sfc32) : Nat × Sfc32 :=
  let t := u32 (u32 (st.a + st.b) + st.d)
  let d := u32 (st.d + 1)
  let a := Nat.xor st.b (st.b / 2 ^ 9)
  let b := u32 (st.c + u32 (st.c * 2 ^ 3))
  let crot := Nat.lor (u32 (st.c * 2 ^ 21)) (st.c / 2 ^ 11)
  let c := u32 (crot + t)
  (t, { a := a, b := b, c := c, d := d })

/-- `Math.floor(random() * 256)` for the seeded generator:
`random()` is `t / 2 ^ 32`, so the component is `t / 2 ^ 24`. -/
def seededRGBDraw (st : Sfc32) : Nat × Sfc32 :=
  let (t, st') := sfc32Next st
  (t / 2 ^ 24, st')

/-- The UTF-16 code units fed to `cyrb128` (code points; see header note). -/
def strCodes (s : String) : List Nat :=
  s.data.map Char.toNat

/-- The deterministic RGB triple produced for a non-empty string. -/
def rgbTripleOf (s : String) : Nat × Nat × Nat :=
  let (s1, s2, s3, s4) := cyrb128 (strCodes s)
  let st0 : Sfc32 := { a := s1, b := s2, c := s3, d := s4 }
  let (r, st1) := seededRGBDraw st0
  let (g, st2) := seededRGBDraw st1
  let (b, _) := seededRGBDraw st2
  (r, g, b)

/-- Rendering `` `rgb(${r}, ${g}, ${b})` ``. -/
def rgbString (r g b : Int) : String :=
  "rgb(" ++ toString r ++ ", " ++ toString g ++ ", " ++ toString b ++ ")"

/-- `Math.floor(Math.random() * 256)` for the ambient generator: `amb k`
is the `k`-th value returned by `Math.random`. -/
def ambRGBDraw (amb : Nat → ℚ) (k : Nat) : Int :=
  Int.floor (amb k * 256)

/-- `generateUniqueColor`.  For a truthy (non-empty) string the color is a
pure function of the string; otherwise three `Math.random` values are
consumed from the ambient stream `amb` starting at counter `ctr`.  Returns
the color string and the new ambient counter. -/
def generateUniqueColor (str : String) (amb : Nat → ℚ) (ctr : Nat) :
    String × Nat :=
  if str = "" then
    (rgbString (ambRGBDraw amb ctr) (ambRGBDraw amb (ctr + 1))
      (ambRGBDraw amb (ctr + 2)), ctr + 3)
  else
    let (r, g, b) := rgbTripleOf str
    (rgbString (r : Int) (g : Int) (b : Int), ctr)

/-! ### Data model -/

/-- One chat message record, with the fields the engine reads.
`mes := none` models a missing or non-string text field (the grouping
`try` block catches the resulting `TypeError` and drops the message);
`bookmark_link := none` models a missing `extra` object or a missing
`extra.bookmark_link` field. -/
structure Message where
  mes : Option String
  is_name : Bool := false
  is_user : Bool := false
  is_system : Bool := false
  name : String := ""
  send_date : String := ""
  swipes : List String := []
  bookmark_link : Option String := none
deriving Repr, DecidableEq

/-- Entry of a transposed depth group: `{file_name, index, message}` as
pushed by `preprocessChatSessions` (there `index` is the depth). -/
structure DepthEntry where
  file_name : String
  index : Nat
  message : Message
deriving Repr, DecidableEq

/-- Entry of a content group: `{file_name, index, message}` as pushed by
`groupMessagesByContent`; `index` is the position of the message in the
depth group (the `forEach` index) and `message` carries the normalized
text. -/
structure GroupEntry where
  file_name : String
  index : Nat
  message : Message
deriving Repr, DecidableEq

/-- Value of the node's `chat_sessions[file_name]` membership record. -/
structure SessionInfo where
  messageId : Nat
  indexInGroup : Nat
  length : Option Nat
deriving Repr, DecidableEq

/-- Graph node data as produced by `createNode` (plus the swipe-node
fields `isSwipe`/`swipeId` and the highlighter's `borderColor`, both
absent at creation). -/
structure NodeData where
  id : String
  msg : String
  chat_depth : Nat
  isBookmark : Bool
  bookmarkName : Option String
  file_name : Option String
  is_name : Bool
  is_user : Bool
  is_system : Bool
  name : String
  send_date : String
  color : Option String
  chat_sessions : List (String × SessionInfo)
  isSwipe : Bool := false
  swipeId : Option Int := none
  borderColor : Option String := none
deriving Repr, DecidableEq

/-- Graph edge data; the decoration fields are set by the highlighter.
`highlightThickness` is a JS double starting at 4 and incremented by 0.1
per hop (capped at 6); it is modelled exactly in tenths as a natural
number (40, 41, ..., 60).  Only this stored decoration value is affected;
no claim depends on it, and the IEEE doubles of the source would not be
exactly representable in any case. -/
structure EdgeData where
  id : String
  source : String
  target : String
  isSwipe : Bool := false
  swipeId : Option Int := none
  isHighlight : Bool := false
  color : Option String := none
  bookmarkName : Option String := none
  highlightThickness : Option Nat := none
  zIndex : Option Nat := none
deriving Repr, DecidableEq

/-- Per-parent variant data (`parentSwipeData[parentNodeId]`); a stored
swipe is a `{node, edge}` pair. -/
structure SwipeData where
  storedSwipes : List (NodeData × EdgeData)
  totalSwipes : Nat
  currentSwipeIndex : Int
deriving Repr, DecidableEq

/-- Payload of a Cytoscape element: the synthetic root node, a message
node, or an edge.  The `Option SwipeData` on node payloads models the
fields merged by `Object.assign(element.data, parentSwipeData[id])`. -/
inductive ElemData where
  | rootData (name : String) (sw : Option SwipeData) (borderColor : Option String)
  | nodeData (n : NodeData) (sw : Option SwipeData)
  | edgeData (e : EdgeData)
deriving Repr, DecidableEq

/-- A Cytoscape element `{group, data}`. -/
structure Element where
  group : String
  data : ElemData
deriving Repr, DecidableEq

/-- `entry.data.id` (undefined on edges is never compared here). -/
def dataId : ElemData → String
  | .rootData _ _ _ => "root"
  | .nodeData n _ => n.id
  | .edgeData e => e.id

/-- `entry.data.isBookmark` (undefined, hence falsy, on root and edges). -/
def dataIsBookmark : ElemData → Bool
  | .nodeData n _ => n.isBookmark
  | _ => false

/-- `entry.data.target` when the payload is an edge. -/
def dataTarget : ElemData → Option String
  | .edgeData e => some e.target
  | _ => none

/-- The node payloads of an element list. -/
def nodeDatas (es : List Element) : List NodeData :=
  es.filterMap (fun e =>
    match e.data with
    | .nodeData n _ => some n
    | _ => none)

/-- The edge payloads of an element list. -/
def edgeDatas (es : List Element) : List EdgeData :=
  es.filterMap (fun e =>
    match e.data with
    | .edgeData ed => some ed
    | _ => none)

/-- Number of synthetic-root elements. -/
def rootCount (es : List Element) : Nat :=
  (es.filter (fun e =>
    match e.data with
    | .rootData _ _ _ => true
    | _ => false)).length

/-- The swipe data merged onto a node-group element, if any. -/
def attachedSwipe : ElemData → Option SwipeData
  | .rootData _ sw _ => sw
  | .nodeData _ sw => sw
  | .edgeData _ => none

/-! ### `preprocessChatSessions` -/

/-- `allChats[index].push(x)` with JS auto-extension: missing slots up to
`index` become empty lists (never exercised here, since each log fills
positions `0..len-1` contiguously). -/
def pushAt {α : Type} : List (List α) → Nat → α → List (List α)
  | [], 0, x => [[x]]
  | [], n + 1, x => [] :: pushAt [] n x
  | ys :: l, 0, x => (ys ++ [x]) :: l
  | ys :: l, n + 1, x => ys :: pushAt l n x

/-- `messages.forEach((message, index) => ...)` for one log. -/
def pushMessages (f : String) (acc : List (List DepthEntry)) :
    List Message → Nat → List (List DepthEntry)
  | [], _ => acc
  | m :: rest, start =>
    pushMessages f (pushAt acc start { file_name := f, index := start, message := m })
      rest (start + 1)

/-- Transpose the per-log message sequences into per-depth groups. -/
def preprocessChatSessions (channelHistory : List (String × List Message)) :
    List (List DepthEntry) :=
  channelHistory.foldl (fun acc p => pushMessages p.1 acc p.2 0) []

/-! ### `groupMessagesByContent` -/

/-- `groups[key].push(e)`, creating `groups[key] = []` first when absent;
a fresh key is appended (object insertion order). -/
def groupInsert (groups : List (String × List GroupEntry)) (key : String)
    (e : GroupEntry) : List (String × List GroupEntry) :=
  match groups with
  | [] => [(key, [e])]
  | (k, es) :: rest =>
    if k = key then (k, es ++ [e]) :: rest else (k, es) :: groupInsert rest key e

/-- One step of the grouping fold: normalize and insert one indexed
message; a message whose `mes` is missing (`none`) throws inside the
`try` block in the source and is logged and skipped. -/
def groupStep (groups : List (String × List GroupEntry)) (p : Nat × DepthEntry) :
    List (String × List GroupEntry) :=
  match p.2.message.mes with
  | none => groups
  | some mesStr =>
    let nm := normalizeNewlines mesStr
    groupInsert groups nm
      { file_name := p.2.file_name, index := p.1,
        message := { p.2.message with mes := some nm } }

/-- Group the messages of one depth by exact normalized text. -/
def groupMessagesByContent (messages : List DepthEntry) :
    List (String × List GroupEntry) :=
  messages.enum.foldl groupStep []

/-! ### `createNode` -/

/-- The legacy bookmark marker text. -/
def legacyMarker : String :=
  "Bookmark created! Click here to open the bookmark chat"

/-- Predicate of the `group.find(...)` callback: the legacy check runs
first, then the current-format check; the member matches when either
holds. -/
def bookmarkMatch (m : Message) : Bool :=
  (m.is_system && strContains (m.mes.getD "") legacyMarker)
    || linkTruthy m.bookmark_link

/-- Fallback group entry; `group[0]` on an empty group would throw in JS,
but every group produced by `groupMessagesByContent` is non-empty. -/
def defaultGroupEntry : GroupEntry :=
  { file_name := "", index := 0, message := { mes := none } }

/-- Build one graph node from a content group.  `lens` is
`allChatFileNamesAndLengths`; `amb`/`ctr` model the `Math.random` state
consumed when a bookmark node has an empty text.  Returns the node and
the new ambient counter. -/
def createNode (nodeId : String) (messageId : Nat) (text : String)
    (group : List GroupEntry) (lens : List (String × Nat))
    (amb : Nat → ℚ) (ctr : Nat) : NodeData × Nat :=
  let bookmark := group.find? (fun ge => bookmarkMatch ge.message)
  let isBookmark := bookmark.isSome
  let bn : Option String × Option String :=
    match bookmark with
    | some b =>
      if linkTruthy b.message.bookmark_link then
        (b.message.bookmark_link, some b.file_name)
      else
        let m := extractBookmarkName (b.message.mes.getD "")
        (m, m)
    | none => (none, some (group.headD defaultGroupEntry).file_name)
  let bookmarkName := bn.1
  let fileNameForNode := bn.2
  let dead := isBookmark && !(hasKey lens (jsShowOpt bookmarkName ++ ".jsonl"))
  let isBookmark' := if dead then false else isBookmark
  let bookmarkName' := if dead then none else bookmarkName
  let fileNameForNode' := if dead then none else fileNameForNode
  let g0 := group.headD defaultGroupEntry
  let chat_sessions := group.foldl (fun cs ge =>
    assocSet cs ge.file_name
      { messageId := messageId, indexInGroup := ge.index,
        length := lookupA lens ge.file_name }) []
  let colorCtr : Option String × Nat :=
    if isBookmark' then
      let (c, ctr') := generateUniqueColor text amb ctr
      (some c, ctr')
    else (none, ctr)
  ({ id := nodeId, msg := text, chat_depth := messageId,
     isBookmark := isBookmark', bookmarkName := bookmarkName',
     file_name := fileNameForNode',
     is_name := g0.message.is_name, is_user := g0.message.is_user,
     is_system := g0.message.is_system, name := g0.message.name,
     send_date := g0.message.send_date, color := colorCtr.1,
     chat_sessions := chat_sessions }, colorCtr.2)

/-! ### `buildGraph` -/

/-- Mutable state of `buildGraph`: the element list, the id counter, the
per-log current tail, the per-parent variant store, and the ambient
`Math.random` counter. -/
structure BGState where
  cyElements : List Element
  keyCounter : Nat
  previousNodes : List (String × String)
  parentSwipeData : List (String × SwipeData)
  rngCtr : Nat
deriving Repr, DecidableEq

/-- One synthesized swipe `{node, edge}` pair. -/
def mkSwipePair (node : NodeData) (parentNodeId : String) (keyCounter total : Nat)
    (allSwipes : List String) (swipeText : String) : NodeData × EdgeData :=
  let swipeIndex := jsIndexOf allSwipes swipeText
  let swipeNodeId := "swipe" ++ Nat.repr keyCounter ++ "-" ++ Nat.repr total
  ({ node with
      id := swipeNodeId
      msg := swipeText
      isSwipe := true
      swipeId := some swipeIndex },
   { id := "edgeSwipe" ++ Nat.repr keyCounter
     source := parentNodeId
     target := swipeNodeId
     isSwipe := true
     swipeId := some swipeIndex })

/-- `parentSwipeData[p].storedSwipes.push(pair)`. -/
def pushStoredSwipe (m : List (String × SwipeData)) (p : String)
    (pair : NodeData × EdgeData) : List (String × SwipeData) :=
  assocModify m p (fun sw => { sw with storedSwipes := sw.storedSwipes ++ [pair] })

/-- One step of `uniqueSwipes.forEach(...)`: synthesize a swipe
node/edge pair, store it in the parent's variant set, and bump the key
counter. -/
def swipeCreateStep (node : NodeData) (parentNodeId : String)
    (allSwipes : List String) (sacc : BGState) (swipeText : String) : BGState :=
  let total := ((lookupA sacc.parentSwipeData parentNodeId).getD
    { storedSwipes := [], totalSwipes := 0, currentSwipeIndex := 0 }).totalSwipes
  let pair := mkSwipePair node parentNodeId sacc.keyCounter total allSwipes swipeText
  { sacc with
      parentSwipeData := pushStoredSwipe sacc.parentSwipeData parentNodeId pair
      keyCounter := sacc.keyCounter + 1 }

/-- Update of `parentSwipeData` by the swipe branch before the creation
loop: create the record if absent (with `currentSwipeIndex` looked up in
the already-filtered variant list), then add this group's variant count. -/
def swipeBranchPSD (text : String) (uniqueSwipes : List String)
    (parentNodeId : String) (psd : List (String × SwipeData)) :
    List (String × SwipeData) :=
  let psd1 :=
    if (lookupA psd parentNodeId).isSome then psd
    else assocSet psd parentNodeId
      { storedSwipes := []
        totalSwipes := 0
        currentSwipeIndex := jsIndexOf uniqueSwipes text }
  assocModify psd1 parentNodeId
    (fun sw => { sw with totalSwipes := sw.totalSwipes + uniqueSwipes.length })

/-- The swipe-extraction branch of the member loop: on a first-seen
parent (at depth > 0), create its variant record if absent, add the
variant count, and synthesize the swipe node/edge pairs. -/
def processMemberSwipes (messageId : Nat) (text : String)
    (allSwipes uniqueSwipes : List String) (node : NodeData)
    (parentNodeId : String) (su : BGState × List String) :
    BGState × List String :=
  if messageId != 0 && !(su.2.contains parentNodeId) then
    let s2 := { su.1 with
      parentSwipeData := swipeBranchPSD text uniqueSwipes parentNodeId su.1.parentSwipeData }
    (uniqueSwipes.foldl (swipeCreateStep node parentNodeId allSwipes) s2,
      su.2 ++ [parentNodeId])
  else su

/-- Body of `for (const messageObj of group)`: stores variant data for a
first-seen parent, then pushes the node and its incoming edge.  The pair
state is `(buildGraph state, uniqueParents)`. -/
def processMember (messageId : Nat) (nodeId : String) (text : String)
    (allSwipes uniqueSwipes : List String) (node : NodeData)
    (su : BGState × List String) (ge : GroupEntry) : BGState × List String :=
  let parentNodeId := (lookupA su.1.previousNodes ge.file_name).getD "undefined"
  let su2 := processMemberSwipes messageId text allSwipes uniqueSwipes node
    parentNodeId su
  let s' := su2.1
  let s'' := { s' with
    cyElements := s'.cyElements ++
      [{ group := "nodes", data := .nodeData node none },
       { group := "edges", data := .edgeData
          { id := "edge" ++ Nat.repr s'.keyCounter,
            source := parentNodeId, target := nodeId } }],
    previousNodes := assocSet s'.previousNodes ge.file_name nodeId,
    keyCounter := s'.keyCounter + 1 }
  (s'', su2.2)

/-- Body of `for (const [text, group] of Object.entries(groups))`:
synthesize the node, extract the variant pool (skipped at depth 0), and
run the member loop. -/
def processGroup (messageId : Nat) (lens : List (String × Nat)) (amb : Nat → ℚ)
    (s : BGState) (tg : String × List GroupEntry) : BGState :=
  let text := tg.1
  let grp := tg.2
  let nodeId := "message" ++ Nat.repr s.keyCounter
  let nc := createNode nodeId messageId text grp lens amb s.rngCtr
  let node := nc.1
  let s0 := { s with rngCtr := nc.2 }
  let allSwipes :=
    if messageId = 0 then []
    else grp.foldl (fun acc ge => acc ++ ge.message.swipes) []
  let uniqueSwipes :=
    if messageId = 0 then []
    else (jsSetDedup allSwipes).filter (fun t => t != text)
  (grp.foldl (processMember messageId nodeId text allSwipes uniqueSwipes node)
    (s0, [])).1

/-- Gather the AI character names (`!is_user && !is_system`), in first
occurrence order (JS `Set` insertion order). -/
def collectCharacterNames (allChats : List (List DepthEntry)) : List String :=
  allChats.foldl (fun names entries =>
    entries.foldl (fun acc mo =>
      if !mo.message.is_user && !mo.message.is_system then
        (if acc.contains mo.message.name then acc else acc ++ [mo.message.name])
      else acc) names) []

/-- `[...characterNames].sort().join(', ')`. -/
def rootNodeName (allChats : List (List DepthEntry)) : String :=
  String.intercalate ", " (sortStrings (collectCharacterNames allChats))

/-- The state after the root push and the `previousNodes` initialization
from `allChats[0]`, before the depth loop. -/
def initialBGState (allChats : List (List DepthEntry)) (first : List DepthEntry) :
    BGState :=
  { cyElements := [{ group := "nodes", data := .rootData (rootNodeName allChats) none none }],
    keyCounter := 1,
    previousNodes := first.foldl (fun pn mo => assocSet pn mo.file_name "root") [],
    parentSwipeData := [],
    rngCtr := 0 }

/-- The depth loop of `buildGraph`: group each depth and process each
group. -/
def buildGraphCore (allChats : List (List DepthEntry)) (lens : List (String × Nat))
    (amb : Nat → ℚ) (first : List DepthEntry) : BGState :=
  allChats.enum.foldl (fun s p =>
    (groupMessagesByContent p.2).foldl (processGroup p.1 lens amb) s)
    (initialBGState allChats first)

/-- Final pass `Object.assign(element.data, parentSwipeData[element.data.id])`
over the node-group elements. -/
def attachSwipeData (psd : List (String × SwipeData)) (es : List Element) :
    List Element :=
  es.map (fun e =>
    if e.group == "nodes" then
      match lookupA psd (dataId e.data) with
      | some sw =>
        { e with data :=
          match e.data with
          | .rootData nm _ bc => .rootData nm (some sw) bc
          | .nodeData n _ => .nodeData n (some sw)
          | d => d }
      | none => e
    else e)

/-- `buildGraph`.  Returns `none` when `allChats` is empty: the source
dereferences `allChats[0]` (undefined) and throws a `TypeError`.  The
`swipeCache.set` call is external state and is not modelled; the variant
store is visible through the attached node data and through
`buildGraphCore`. -/
def buildGraph (allChats : List (List DepthEntry)) (lens : List (String × Nat))
    (_cacheKey : String) (amb : Nat → ℚ) : Option (List Element) :=
  match allChats with
  | [] => none
  | first :: _ =>
    let st := buildGraphCore allChats lens amb first
    some (attachSwipeData st.parentSwipeData st.cyElements)

/-! ### `highlightCheckpointPaths` -/

/-- Why a backward walk ended: no incoming edge (root reached), a
different checkpoint wrapper, a missing source wrapper (`find` returned
undefined), or exhausted fuel (the fuel bound is proved sufficient for
every graph this engine builds). -/
inductive StopReason where
  | noIncoming
  | otherCheckpoint
  | noSourceNode
  | fuelOut
deriving Repr, DecidableEq

/-- Result of one backward walk: the updated element list, the ids of the
edges it marked in order, the index of the wrapper at which it stopped,
and the stop reason. -/
structure WalkResult where
  raw : List Element
  marked : List String
  finalIdx : Option Nat
  reason : StopReason
deriving Repr, DecidableEq

/-- Element read with a dummy default (indices are always in range). -/
def elemAtD (raw : List Element) (i : Nat) : Element :=
  raw.getD i { group := "", data := .edgeData { id := "", source := "", target := "" } }

/-- Index of the first element satisfying `p` (the JS `Array.find`). -/
def findIdxA (p : Element → Bool) : List Element → Option Nat
  | [] => none
  | e :: t => if p e then some 0 else (findIdxA p t).map (fun i => i + 1)

/-- `rawData.find(entry => entry.group === 'nodes' && entry.data.id === id)`,
as the index of the first matching wrapper. -/
def findNodeIdx (raw : List Element) (id : String) : Option Nat :=
  findIdxA (fun e => e.group == "nodes" && dataId e.data == id) raw

/-- `rawData.find(entry => entry.group === 'edges' && entry.data.target === id)`. -/
def findIncomingIdx (raw : List Element) (id : String) : Option Nat :=
  findIdxA (fun e => e.group == "edges" && dataTarget e.data == some id) raw

/-- The decorated copy of an edge wrapper produced by `markEdgeAt`. -/
def markedEdgeElem (el : Element) (e : EdgeData) (c b : Option String)
    (t : Nat) (z : Nat) : Element :=
  let e2 : EdgeData :=
    { e with
        isHighlight := true
        color := c
        bookmarkName := b
        highlightThickness := some t
        zIndex := some z }
  { el with data := .edgeData e2 }

/-- Set the highlight decorations of the edge wrapper at index `j`. -/
def markEdgeAt (raw : List Element) (j : Nat) (color bname : Option String)
    (thick z : Nat) : List Element :=
  match raw.get? j with
  | some el =>
    match el.data with
    | .edgeData e => raw.set j (markedEdgeElem el e color bname thick z)
    | _ => raw
  | none => raw

/-- `currentNode.data.borderColor = c`: the node data object is shared by
every wrapper of the same id, so all of them are updated. -/
def setBorderAll (raw : List Element) (id : String) (col : Option String) :
    List Element :=
  raw.map (fun e =>
    if e.group == "nodes" && dataId e.data == id then
      { e with data :=
        match e.data with
        | .rootData nm sw _ => .rootData nm sw col
        | .nodeData n sw => .nodeData { n with borderColor := col } sw
        | d => d }
    else e)

/-- The `while (currentNode)` loop of one checkpoint trace.  A wrapper
index plays the role of the `currentNode` reference; the reference
comparison `currentNode !== bookmarkNode` is the index comparison with
`startIdx`. -/
def walkAux (bColor bName : Option String) (startIdx : Nat) :
    Nat → List Element → Nat → Nat → Nat → List String → WalkResult
  | 0, raw, curIdx, _, _, marked =>
    { raw := raw, marked := marked, finalIdx := some curIdx, reason := .fuelOut }
  | fuel + 1, raw, curIdx, z, thick, marked =>
    let cur := elemAtD raw curIdx
    if curIdx != startIdx && dataIsBookmark cur.data then
      { raw := raw, marked := marked, finalIdx := some curIdx,
        reason := .otherCheckpoint }
    else
      match findIncomingIdx raw (dataId cur.data) with
      | none =>
        { raw := raw, marked := marked, finalIdx := some curIdx,
          reason := .noIncoming }
      | some j =>
        let eid := dataId (elemAtD raw j).data
        let src :=
          match (elemAtD raw j).data with
          | .edgeData e => e.source
          | _ => ""
        let raw1 := markEdgeAt raw j bColor bName thick z
        let raw2 := setBorderAll raw1 (dataId cur.data) bColor
        match findNodeIdx raw2 src with
        | none =>
          { raw := raw2, marked := marked ++ [eid], finalIdx := none,
            reason := .noSourceNode }
        | some k =>
          walkAux bColor bName startIdx fuel raw2 k (z + 1)
            (min (thick + 1) 60) (marked ++ [eid])

/-- One full backward walk from the checkpoint wrapper at `startIdx`,
with the checkpoint's color and target name, starting z-index 1000 and
thickness 4 (40 tenths).  The fuel `raw.length + 2` is proved sufficient
for every graph built by this engine. -/
def walkFrom (raw : List Element) (startIdx : Nat) : WalkResult :=
  let bColor :=
    match (elemAtD raw startIdx).data with
    | .nodeData n _ => n.color
    | _ => none
  let bName :=
    match (elemAtD raw startIdx).data with
    | .nodeData n _ => n.bookmarkName
    | _ => none
  walkAux bColor bName startIdx (raw.length + 2) raw startIdx 1000 40 []

/-- Indices of the checkpoint wrappers
(`rawData.filter(e => e.group === 'nodes' && e.data.isBookmark)`). -/
def bookmarkIndices (raw : List Element) : List Nat :=
  raw.enum.filterMap (fun p =>
    if p.2.group == "nodes" && dataIsBookmark p.2.data then some p.1 else none)

/-- `highlightCheckpointPaths`: trace every checkpoint wrapper in list
order, threading the mutated element list. -/
def highlightCheckpointPaths (raw : List Element) : List Element :=
  (bookmarkIndices raw).foldl (fun acc i => (walkFrom acc i).raw) raw

/-- The ids of the edges marked by the backward walk from the wrapper at
`startIdx`, in walk order (observer projection of `walkFrom`). -/
def highlightWalkEdges (raw : List Element) (startIdx : Nat) : List String :=
  (walkFrom raw startIdx).marked

/-! ### `convertToCytoscapeElements` -/

/-- Top-level conversion: transpose, compute the log lengths, build the
graph, highlight the checkpoint paths.  `none` models the `TypeError`
thrown by `buildGraph` when no log contributes any message. -/
def convertToCytoscapeElements (chatHistory : List (String × List Message))
    (cacheKey : String) (amb : Nat → ℚ) : Option (List Element) :=
  let allChats := preprocessChatSessions chatHistory
  let lens := chatHistory.map (fun p => (p.1, p.2.length))
  match buildGraph allChats lens cacheKey amb with
  | none => none
  | some elements => some (highlightCheckpointPaths elements)

/-- Decimal digits of `n`, most significant first, as produced by
`Nat.toDigitsCore` with sufficient fuel. -/
def natDigits : Nat → List Char
  | n =>
    if _ : n < 10 then [Nat.digitChar n]
    else natDigits (n / 10) ++ [Nat.digitChar (n % 10)]
decreasing_by exact Nat.div_lt_self (by omega) (by omega)

/-- Numeric value of a digit character. -/
def digitVal (c : Char) : Nat := c.toNat - 48

/-- Value of a most-significant-first digit list. -/
def valDigits (l : List Char) : Nat :=
  l.foldl (fun a c => a * 10 + digitVal c) 0

/-! ### Property definitions used by the invariants -/

/-- The structural skeleton of the node payloads: id, depth, checkpoint
flag — the fields untouched by the highlighter's decorations. -/
def nodeSkels (es : List Element) : List (String × Nat × Bool) :=
  (nodeDatas es).map (fun n => (n.id, n.chat_depth, n.isBookmark))

/-- The (source, target) pairs of the edge payloads. -/
def edgePairs (es : List Element) : List (String × String) :=
  (edgeDatas es).map (fun ed => (ed.source, ed.target))

/-- Shape well-formedness: node-group wrappers carry root or node
payloads, edge-group wrappers carry edge payloads. -/
def wfElems (es : List Element) : Prop :=
  ∀ e ∈ es,
    (e.group = "nodes" ∧ ((∃ nm sw bc, e.data = .rootData nm sw bc)
      ∨ (∃ n sw, e.data = .nodeData n sw)))
    ∨ (e.group = "edges" ∧ ∃ ed, e.data = .edgeData ed)

/-- The structural graph invariant of an assembled element list: one
root wrapper, no edge into the root, every edge target carried by a node
wrapper, every edge source carried by the root or a node wrapper, depth
strictly increasing along every edge, depth a function of the node id,
and every node id reached by at least one edge. -/
def graphInv (raw : List Element) : Prop :=
  wfElems raw
  ∧ rootCount raw = 1
  ∧ (∀ pr ∈ edgePairs raw, pr.2 ≠ "root"
      ∧ (∃ ni ∈ nodeSkels raw, ni.1 = pr.2)
      ∧ (pr.1 = "root" ∨ ∃ ni ∈ nodeSkels raw, ni.1 = pr.1))
  ∧ (∀ pr ∈ edgePairs raw, ∀ a ∈ nodeSkels raw, ∀ b ∈ nodeSkels raw,
      a.1 = pr.1 → b.1 = pr.2 → a.2.1 < b.2.1)
  ∧ (∀ a ∈ nodeSkels raw, ∀ b ∈ nodeSkels raw, a.1 = b.1 → a.2.1 = b.2.1)
  ∧ (∀ ni ∈ nodeSkels raw, ∃ pr ∈ edgePairs raw, pr.2 = ni.1)

/-- The full state invariant of `buildGraph`'s depth loop, with `bound`
an exclusive upper bound on every node depth.  `d0files` is the set of
log names seeded into `previousNodes`. -/
def structInv (d0files : List String) (bound : Nat) (s : BGState) : Prop :=
  graphInv s.cyElements
  ∧ 1 ≤ s.keyCounter
  ∧ (∀ n ∈ nodeDatas s.cyElements,
      ∃ j, 1 ≤ j ∧ j < s.keyCounter ∧ n.id = "message" ++ Nat.repr j
        ∧ n.chat_depth < bound)
  ∧ (∀ f p, lookupA s.previousNodes f = some p → p = "root"
      ∨ ((∃ n ∈ nodeDatas s.cyElements, n.id = p)
        ∧ ∀ n ∈ nodeDatas s.cyElements, n.id = p → n.chat_depth < bound))
  ∧ (∀ f ∈ d0files, (lookupA s.previousNodes f).isSome = true)



/-- An element property preserved by every mutation the checkpoint-path
highlighter performs (edge decoration, root border color, node border
color). -/
def decorStable (P : Element → Prop) : Prop :=
  (∀ (el : Element) (e : EdgeData) (c b : Option String) (t z : Nat),
     el.data = .edgeData e → P el → P (markedEdgeElem el e c b t z))
  ∧ (∀ (el : Element) (nm : String) (sw : Option SwipeData) (bc c : Option String),
      el.data = .rootData nm sw bc → P el →
      P { el with data := .rootData nm sw c })
  ∧ (∀ (el : Element) (n : NodeData) (sw : Option SwipeData) (c : Option String),
      el.data = .nodeData n sw → P el →
      P { el with data := .nodeData { n with borderColor := c } sw })

/-- Erase exactly the fields the checkpoint-path highlighter mutates
(edge decorations and border colors), leaving the structural content. -/
def stripDecor (e : Element) : Element :=
  { e with data :=
    match e.data with
    | .rootData nm sw _ => .rootData nm sw none
    | .nodeData n sw => .nodeData { n with borderColor := none } sw
    | .edgeData ed => .edgeData { ed with
        isHighlight := false, color := none, bookmarkName := none,
        highlightThickness := none, zIndex := none } }

/-- Number of node skeletons of strictly smaller depth: the rank measure
of a backward walk position. -/
def countBelow (raw : List Element) (D : Nat) : Nat :=
  ((nodeSkels raw).filter (fun sk => sk.2.1 < D)).length

/-- Observer of `highlightCheckpointPaths`: the stop reason of each
backward walk, in checkpoint order, threading the mutated element list
exactly as the highlighter does. -/
def walkReasons (raw : List Element) : List StopReason :=
  ((bookmarkIndices raw).foldl (fun acc i =>
    ((walkFrom acc.1 i).raw, acc.2 ++ [(walkFrom acc.1 i).reason]))
    (raw, ([] : List StopReason))).2

/-- Observer of `highlightCheckpointPaths`: the list of edge ids marked
by each backward walk, in checkpoint order, threading the mutated element
list exactly as the highlighter does. -/
def walkMarkLists (raw : List Element) : List (List String) :=
  ((bookmarkIndices raw).foldl (fun acc i =>
    ((walkFrom acc.1 i).raw, acc.2 ++ [(walkFrom acc.1 i).marked]))
    (raw, ([] : List (List String)))).2

/-- The member files of a group list, flattened in order. -/
def flatFiles : List (String × List GroupEntry) → List String
  | [] => []
  | tg :: rest => tg.2.map (fun ge => ge.file_name) ++ flatFiles rest

/-- The `previousNodes` clause of the construction invariant at depth
`d`: every stored parent is the root or the id of an already-pushed node
of depth at most `d`, and strictly below `d` for files whose member at
depth `d` is still pending (the list `R`). -/
def pnClauseM (R : List String) (d : Nat) (s : BGState) : Prop :=
  ∀ f p, lookupA s.previousNodes f = some p → p = "root"
    ∨ ((∃ n ∈ nodeDatas s.cyElements, n.id = p)
       ∧ (∀ n ∈ nodeDatas s.cyElements, n.id = p → n.chat_depth ≤ d)
       ∧ (f ∈ R → ∀ n ∈ nodeDatas s.cyElements, n.id = p → n.chat_depth < d))

/-- The construction invariant between content groups of depth `d`,
with `R` the flattened member files still pending at this depth. -/
def gInv (d0files : List String) (d : Nat) (R : List String) (s : BGState) : Prop :=
  graphInv s.cyElements
  ∧ 1 ≤ s.keyCounter
  ∧ (∀ n ∈ nodeDatas s.cyElements,
      ∃ j, 1 ≤ j ∧ j < s.keyCounter ∧ n.id = "message" ++ Nat.repr j
        ∧ n.chat_depth ≤ d)
  ∧ pnClauseM R d s
  ∧ (∀ f ∈ d0files, (lookupA s.previousNodes f).isSome = true)

/-- The construction invariant between members of one content group of
depth `d`: `node` is the group's synthesized node and `k0` the key
counter at group entry (so `node.id = "message" ++ Nat.repr k0`); every
pushed node is an older `"message" ++ j` node of depth at most `d`, or
this group's node (pushed only after the counter moved past `k0`). -/
def mInv (d0files : List String) (d : Nat) (node : NodeData) (k0 : Nat)
    (R : List String) (s : BGState) : Prop :=
  graphInv s.cyElements
  ∧ 1 ≤ k0
  ∧ k0 ≤ s.keyCounter
  ∧ (∀ n ∈ nodeDatas s.cyElements,
      (∃ j, 1 ≤ j ∧ j < k0 ∧ n.id = "message" ++ Nat.repr j ∧ n.chat_depth ≤ d)
      ∨ (n = node ∧ k0 < s.keyCounter))
  ∧ pnClauseM R d s
  ∧ (∀ f ∈ d0files, (lookupA s.previousNodes f).isSome = true)

/-! ### Concrete example inputs used by witnesses and counterexamples -/

/-- A plain message with the given text. -/
def exMsg (t : String) : Message := { mes := some t }

/-- A message with text and a swipe list. -/
def exMsgSw (t : String) (sw : List String) : Message :=
  { mes := some t, swipes := sw }

/-- A message carrying a current-format checkpoint link. -/
def exMsgCp (t : String) (link : String) : Message :=
  { mes := some t, bookmark_link := some link }

/-- A legacy-format bookmark message targeting `leg`. -/
def exLegacyMsg : Message :=
  { mes := some "Bookmark created! Click here to open the bookmark chat <a file_name=\"leg\">"
    is_system := true }

/-- A fixed ambient `Math.random` stream for concrete runs. -/
def exAmb : Nat → ℚ := fun _ => 0

/-- Two logs sharing their first message. -/
def exHistTwo : List (String × List Message) :=
  [("a.jsonl", [exMsg "hi", exMsg "bye"]), ("b.jsonl", [exMsg "hi", exMsg "later"])]

/-- One log whose second message has itself in its variant pool. -/
def exHistSwipes : List (String × List Message) :=
  [("a.jsonl", [exMsg "hi", exMsgSw "reply" ["reply", "alt"]])]

/-- Two logs sharing depth 0 and ending in distinct live checkpoints. -/
def exHistCp : List (String × List Message) :=
  [("a.jsonl", [exMsg "hi", exMsgCp "cone" "a"]),
   ("b.jsonl", [exMsg "hi", exMsgCp "ctwo" "b"])]

/-- A depth group joining three logs, two of which share the text `x`. -/
def exDepthGroup : List DepthEntry :=
  [⟨"a.jsonl", 0, { mes := some "x" }⟩, ⟨"b.jsonl", 0, { mes := some "y" }⟩,
   ⟨"c.jsonl", 0, { mes := some "x" }⟩]

/-- The content partition of `exDepthGroup` for the text `x`. -/
def exGrpX : List GroupEntry :=
  [⟨"a.jsonl", 0, { mes := some "x" }⟩, ⟨"c.jsonl", 2, { mes := some "x" }⟩]

/-- A group whose first member is a legacy-format bookmark and whose
second member carries a current-format link. -/
def exGrpPrec : List GroupEntry :=
  [⟨"a.jsonl", 0, exLegacyMsg⟩, ⟨"b.jsonl", 1, exMsgCp "t" "cur"⟩]

/-! ### Generic helper lemmas -/

/-- Invariant preservation along a left fold. -/
theorem foldl_inv {α β : Type _} (P : α → Prop) (f : α → β → α) :
    ∀ (l : List β) (s : α), P s → (∀ a b, b ∈ l → P a → P (f a b)) →
      P (l.foldl f s)
  | [], _, hs, _ => hs
  | x :: t, s, hs, hstep =>
    foldl_inv P f t (f s x) (hstep s x (by simp) hs)
      (fun a b hb ha => hstep a b (by simp [hb]) ha)

theorem lookupA_assocSet_self {α : Type} (m : List (String × α)) (k : String)
    (v : α) : lookupA (assocSet m k v) k = some v := by
  induction m with
  | nil => simp [assocSet, lookupA]
  | cons p t ih =>
    by_cases h : p.1 = k
    · simp [assocSet, h, lookupA]
    · simp [assocSet, h, lookupA, ih]

theorem lookupA_assocSet_ne {α : Type} (m : List (String × α)) (k k' : String)
    (v : α) (h : k' ≠ k) : lookupA (assocSet m k v) k' = lookupA m k' := by
  induction m with
  | nil =>
    have hne : ¬ k = k' := fun hh => h hh.symm
    simp [assocSet, lookupA, hne]
  | cons p t ih =>
    obtain ⟨pk, pv⟩ := p
    by_cases hp : pk = k
    · subst hp
      have hne : ¬ pk = k' := fun hh => h hh.symm
      simp [assocSet, lookupA, hne]
    · simp [assocSet, lookupA, hp, ih]

theorem assocSet_values {α : Type} (P : α → Prop) (m : List (String × α))
    (k : String) (v : α) (hm : ∀ e ∈ m, P e.2) (hv : P v) :
    ∀ e ∈ assocSet m k v, P e.2 := by
  induction m with
  | nil => simp [assocSet]; exact hv
  | cons p t ih =>
    obtain ⟨pk, pv⟩ := p
    by_cases h : pk = k
    · simp only [assocSet, h, if_true]
      intro e he
      rcases List.mem_cons.mp he with rfl | he'
      · exact hv
      · exact hm e (by simp [he'])
    · simp only [assocSet, h, if_false]
      intro e he
      rcases List.mem_cons.mp he with rfl | he'
      · exact hm (pk, pv) (by simp)
      · exact ih (fun x hx => hm x (by simp [hx])) e he'

theorem assocModify_values {α : Type} (P : α → Prop) (m : List (String × α))
    (k : String) (f : α → α) (hm : ∀ e ∈ m, P e.2)
    (hf : ∀ v, P v → P (f v)) : ∀ e ∈ assocModify m k f, P e.2 := by
  induction m with
  | nil => simp [assocModify]
  | cons p t ih =>
    obtain ⟨pk, pv⟩ := p
    by_cases h : pk = k
    · simp only [assocModify, h, if_true]
      intro e he
      rcases List.mem_cons.mp he with rfl | he'
      · exact hf _ (hm (pk, pv) (by simp))
      · exact hm e (by simp [he'])
    · simp only [assocModify, h, if_false]
      intro e he
      rcases List.mem_cons.mp he with rfl | he'
      · exact hm (pk, pv) (by simp)
      · exact ih (fun x hx => hm x (by simp [hx])) e he'

theorem hasKey_iff {α : Type} (m : List (String × α)) (k : String) :
    hasKey m k = true ↔ ∃ v, (k, v) ∈ m := by
  induction m with
  | nil => simp [hasKey]
  | cons p t ih =>
    simp only [hasKey, Bool.or_eq_true, decide_eq_true_eq, ih]
    constructor
    · rintro (h | ⟨v, hv⟩)
      · exact ⟨p.2, by simp [← h]⟩
      · exact ⟨v, by simp [hv]⟩
    · rintro ⟨v, hv⟩
      rcases List.mem_cons.mp hv with h | h
      · left
        exact (congrArg Prod.fst h.symm)
      · right
        exact ⟨v, h⟩

/-- `indexOf` never finds `x` in a list from which `x` was filtered out. -/
theorem jsIndexOfAux_filter_ne (l : List String) (x : String) :
    ∀ i, jsIndexOfAux (l.filter (fun y => y != x)) x i = -1 := by
  induction l with
  | nil => intro i; rfl
  | cons y t ih =>
    intro i
    by_cases h : y = x
    · simp [List.filter_cons, h, ih]
    · have hb : (y != x) = true := by simp [h]
      simp only [List.filter_cons, hb, if_true]
      rw [jsIndexOfAux]
      simp [h, ih]

theorem jsIndexOf_filter_ne (l : List String) (x : String) :
    jsIndexOf (l.filter (fun y => y != x)) x = -1 :=
  jsIndexOfAux_filter_ne l x 0

/-! ### Injectivity of `Nat.repr` (used for freshness of node ids) -/

theorem valDigits_append_digit (l : List Char) (c : Char) :
    valDigits (l ++ [c]) = valDigits l * 10 + digitVal c := by
  simp [valDigits, List.foldl_append]

theorem digitVal_digitChar : ∀ k, k < 10 → digitVal (Nat.digitChar k) = k := by
  decide

theorem valDigits_natDigits (n : Nat) : valDigits (natDigits n) = n := by
  induction n using Nat.strong_induction_on with
  | _ n ih =>
    rw [natDigits]
    by_cases h : n < 10
    · simp only [h, dif_pos]
      simpa [valDigits] using digitVal_digitChar n h
    · simp only [h, dif_neg, not_false_iff]
      rw [valDigits_append_digit, ih (n / 10) (Nat.div_lt_self (by omega) (by omega)),
        digitVal_digitChar (n % 10) (Nat.mod_lt n (by omega))]
      omega

theorem natDigits_injective (a b : Nat) (h : natDigits a = natDigits b) : a = b := by
  have ha := valDigits_natDigits a
  have hb := valDigits_natDigits b
  rw [h] at ha
  omega

theorem toDigitsCore_eq_natDigits :
    ∀ (fuel n : Nat) (ds : List Char), n < fuel →
      Nat.toDigitsCore 10 fuel n ds = natDigits n ++ ds := by
  intro fuel
  induction fuel with
  | zero => omega
  | succ f ih =>
    intro n ds h
    rw [Nat.toDigitsCore]
    by_cases h10 : n / 10 = 0
    · have hn : n < 10 := by omega
      have : n % 10 = n := Nat.mod_eq_of_lt hn
      simp [h10, natDigits, hn, this]
    · have hn : ¬ n < 10 := by
        intro hc
        exact h10 (Nat.div_eq_of_lt hc)
      simp only [h10, if_false]
      rw [ih (n / 10) _ (by omega)]
      conv_rhs => rw [natDigits]
      simp [hn]

theorem repr_eq_natDigits (n : Nat) : Nat.repr n = (natDigits n).asString := by
  rw [Nat.repr, Nat.toDigits, toDigitsCore_eq_natDigits (n + 1) n [] (by omega)]
  simp

theorem natRepr_injective (a b : Nat) (h : Nat.repr a = Nat.repr b) : a = b := by
  rw [repr_eq_natDigits, repr_eq_natDigits] at h
  apply natDigits_injective
  have h2 : ({ data := natDigits a } : String) = { data := natDigits b } := by
    simpa [List.asString] using h
  exact congrArg String.data h2

/-- Freshness of node ids: `"message" ++ repr` is injective. -/
theorem mkNodeId_injective (a b : Nat)
    (h : "message" ++ Nat.repr a = "message" ++ Nat.repr b) : a = b := by
  apply natRepr_injective
  have hd := congrArg String.data h
  simp only [String.data_append] at hd
  have : (Nat.repr a).data = (Nat.repr b).data := List.append_cancel_left hd
  cases ha : Nat.repr a
  cases hb : Nat.repr b
  simp_all

/-- Node ids never collide with the synthetic root id. -/
theorem mkNodeId_ne_root (s : String) : "message" ++ s ≠ "root" := by
  intro h
  have hd := congrArg String.data h
  have hl := congrArg List.length hd
  simp [String.data_append] at hl

/-! ### Claim C9: the color generator contract -/

/-- C9. `generateUniqueColor` is deterministic for non-empty strings: the
produced color string depends only on the input string, not on the
ambient `Math.random` stream or its counter (hence it is identical across
calls and processes).  For the empty (falsy) string it still returns an
`rgb(r, g, b)` string whose three components are integers in `[0, 256)`,
provided the ambient stream returns values in `[0, 1)` as `Math.random`
does. -/
theorem generateUniqueColor_contract :
    (∀ (s : String) (amb amb' : Nat → ℚ) (ctr ctr' : Nat), s ≠ "" →
      (generateUniqueColor s amb ctr).1 = (generateUniqueColor s amb' ctr').1)
    ∧ (∀ (amb : Nat → ℚ) (ctr : Nat), (∀ k, 0 ≤ amb k ∧ amb k < 1) →
      ∃ r g b : Int, 0 ≤ r ∧ r < 256 ∧ 0 ≤ g ∧ g < 256 ∧ 0 ≤ b ∧ b < 256 ∧
        (generateUniqueColor "" amb ctr).1 = rgbString r g b) := by
  constructor
  · intro s amb amb' ctr ctr' hs
    simp [generateUniqueColor, hs]
  · intro amb ctr h
    have bound : ∀ k, 0 ≤ ambRGBDraw amb k ∧ ambRGBDraw amb k < 256 := by
      intro k
      constructor
      · rw [ambRGBDraw, Int.le_floor]
        push_cast
        nlinarith [(h k).1]
      · rw [ambRGBDraw, Int.floor_lt]
        push_cast
        nlinarith [(h k).2]
    exact ⟨ambRGBDraw amb ctr, ambRGBDraw amb (ctr + 1), ambRGBDraw amb (ctr + 2),
      (bound ctr).1, (bound ctr).2, (bound (ctr + 1)).1, (bound (ctr + 1)).2,
      (bound (ctr + 2)).1, (bound (ctr + 2)).2, by simp [generateUniqueColor]⟩

/-- Witness for C9 at concrete inputs: two different ambient streams and
counters give the same color for `"abc"`, and the empty string yields a
valid rgb triple for the constant stream `1/2`. -/
theorem generateUniqueColor_contract_witness :
    ("abc" ≠ "" ∧
      (generateUniqueColor "abc" (fun _ : Nat => (0 : ℚ)) 0).1 =
        (generateUniqueColor "abc" (fun _ : Nat => (1 : ℚ) / 2) 7).1)
    ∧ ((∀ k, 0 ≤ ((fun _ : Nat => (1 : ℚ) / 2) k) ∧ ((fun _ : Nat => (1 : ℚ) / 2) k) < 1)
      ∧ ∃ r g b : Int, 0 ≤ r ∧ r < 256 ∧ 0 ≤ g ∧ g < 256 ∧ 0 ≤ b ∧ b < 256 ∧
        (generateUniqueColor "" (fun _ : Nat => (1 : ℚ) / 2) 3).1 = rgbString r g b) :=
  ⟨⟨by decide,
    generateUniqueColor_contract.1 "abc" (fun _ : Nat => (0 : ℚ))
      (fun _ : Nat => (1 : ℚ) / 2) 0 7 (by decide)⟩,
   ⟨fun _ => by norm_num,
    generateUniqueColor_contract.2 (fun _ : Nat => (1 : ℚ) / 2) 3 (fun _ => by norm_num)⟩⟩

/-! ### Claim C5: grouping by exact normalized text -/

theorem groupInsert_keys (g : List (String × List GroupEntry)) (k : String)
    (e : GroupEntry) :
    ((groupInsert g k e).map Prod.fst = g.map Prod.fst) ∨
    ((groupInsert g k e).map Prod.fst = g.map Prod.fst ++ [k]) := by
  induction g with
  | nil => right; simp [groupInsert]
  | cons p t ih =>
    by_cases hk : p.1 = k
    · left; simp [groupInsert, hk]
    · rcases ih with h | h
      · left; simp [groupInsert, hk, h]
      · right; simp [groupInsert, hk, h]

theorem groupInsert_keys_nodup (g : List (String × List GroupEntry)) (k : String)
    (e : GroupEntry) (h : (g.map Prod.fst).Nodup) :
    ((groupInsert g k e).map Prod.fst).Nodup := by
  induction g with
  | nil => simp [groupInsert]
  | cons p t ih =>
    by_cases hk : p.1 = k
    · simpa [groupInsert, hk] using h
    · simp only [groupInsert, hk, if_false, List.map_cons, List.nodup_cons] at h ⊢
      refine ⟨?_, ih h.2⟩
      intro hc
      rcases groupInsert_keys t k e with hK | hK
      · rw [hK] at hc
        exact h.1 hc
      · rw [hK] at hc
        rcases List.mem_append.mp hc with hc | hc
        · exact h.1 hc
        · exact hk (List.mem_singleton.mp hc)

theorem groupInsert_member_key
    (P : String → GroupEntry → Prop) (g : List (String × List GroupEntry))
    (k : String) (e : GroupEntry)
    (hg : ∀ ke ∈ g, ∀ x ∈ ke.2, P ke.1 x) (he : P k e) :
    ∀ ke ∈ groupInsert g k e, ∀ x ∈ ke.2, P ke.1 x := by
  induction g with
  | nil =>
    simp only [groupInsert]
    intro ke hke x hx
    rcases List.mem_singleton.mp hke with rfl
    rcases List.mem_singleton.mp hx with rfl
    exact he
  | cons p t ih =>
    by_cases hk : p.1 = k
    · simp only [groupInsert, hk, if_true]
      intro ke hke x hx
      rcases List.mem_cons.mp hke with rfl | hke'
      · rcases List.mem_append.mp hx with hx | hx
        · exact hk ▸ hg p (by simp) x hx
        · rcases List.mem_singleton.mp hx with rfl
          exact he
      · exact hg ke (by simp [hke']) x hx
    · simp only [groupInsert, hk, if_false]
      intro ke hke x hx
      rcases List.mem_cons.mp hke with rfl | hke'
      · exact hg p (by simp) x hx
      · exact ih (fun y hy => hg y (by simp [hy])) ke hke' x hx

theorem groupInsert_stable (g : List (String × List GroupEntry)) (k : String)
    (e : GroupEntry) (key : String) (es : List GroupEntry)
    (h : (key, es) ∈ g) :
    ∃ es', (key, es') ∈ groupInsert g k e ∧ ∀ x ∈ es, x ∈ es' := by
  induction g with
  | nil => simp at h
  | cons p t ih =>
    by_cases hk : p.1 = k
    · simp only [groupInsert, hk, if_true]
      rcases List.mem_cons.mp h with rfl | h'
      · exact ⟨es ++ [e], by simp [Or.inl hk], fun x hx => by simp [hx]⟩
      · exact ⟨es, by simp [h'], fun x hx => hx⟩
    · simp only [groupInsert, hk, if_false]
      rcases List.mem_cons.mp h with rfl | h'
      · exact ⟨es, by simp, fun x hx => hx⟩
      · rcases ih h' with ⟨es', hmem, hsub⟩
        exact ⟨es', by simp [hmem], hsub⟩

theorem groupInsert_inserted (g : List (String × List GroupEntry)) (k : String)
    (e : GroupEntry) :
    ∃ es, (k, es) ∈ groupInsert g k e ∧ e ∈ es := by
  induction g with
  | nil => exact ⟨[e], by simp [groupInsert], by simp⟩
  | cons p t ih =>
    by_cases hk : p.1 = k
    · exact ⟨p.2 ++ [e], by simp [groupInsert, hk], by simp⟩
    · rcases ih with ⟨es, hmem, he⟩
      exact ⟨es, by simp [groupInsert, hk, hmem], he⟩

theorem groupFold_inv (l : List (Nat × DepthEntry)) :
    ∀ acc, ((acc.map Prod.fst).Nodup) →
      (∀ ke ∈ acc, ∀ x ∈ ke.2, x.message.mes = some ke.1) →
      (((l.foldl groupStep acc).map Prod.fst).Nodup
        ∧ (∀ ke ∈ l.foldl groupStep acc, ∀ x ∈ ke.2, x.message.mes = some ke.1)
        ∧ (∀ key es, (key, es) ∈ acc →
            ∃ es', (key, es') ∈ l.foldl groupStep acc ∧ ∀ x ∈ es, x ∈ es')
        ∧ (∀ p ∈ l, ∀ s, p.2.message.mes = some s →
            ∃ es, (normalizeNewlines s, es) ∈ l.foldl groupStep acc ∧
              (⟨p.2.file_name, p.1,
                { p.2.message with mes := some (normalizeNewlines s) }⟩ : GroupEntry) ∈ es)) := by
  induction l with
  | nil =>
    intro acc h1 h2
    exact ⟨h1, h2, fun key es h => ⟨es, h, fun x hx => hx⟩, by simp⟩
  | cons p t ih =>
    intro acc h1 h2
    rcases hmes : p.2.message.mes with _ | mesStr
    · have hstep : groupStep acc p = acc := by simp [groupStep, hmes]
      have := ih acc h1 h2
      rw [List.foldl_cons, hstep]
      refine ⟨this.1, this.2.1, this.2.2.1, ?_⟩
      intro q hq s hs
      rcases List.mem_cons.mp hq with rfl | hq'
      · rw [hmes] at hs
        exact absurd hs (by simp)
      · exact this.2.2.2 q hq' s hs
    · have hstep : groupStep acc p = groupInsert acc (normalizeNewlines mesStr)
          ⟨p.2.file_name, p.1, { p.2.message with mes := some (normalizeNewlines mesStr) }⟩ := by
        simp [groupStep, hmes]
      have h1' := groupInsert_keys_nodup acc (normalizeNewlines mesStr)
        ⟨p.2.file_name, p.1, { p.2.message with mes := some (normalizeNewlines mesStr) }⟩ h1
      have h2' := groupInsert_member_key (fun key x => x.message.mes = some key)
        acc (normalizeNewlines mesStr)
        ⟨p.2.file_name, p.1, { p.2.message with mes := some (normalizeNewlines mesStr) }⟩ h2 rfl
      have := ih (groupInsert acc (normalizeNewlines mesStr)
        ⟨p.2.file_name, p.1, { p.2.message with mes := some (normalizeNewlines mesStr) }⟩) h1' h2'
      rw [List.foldl_cons, hstep]
      refine ⟨this.1, this.2.1, ?_, ?_⟩
      · intro key es hkey
        rcases groupInsert_stable acc (normalizeNewlines mesStr)
          ⟨p.2.file_name, p.1, { p.2.message with mes := some (normalizeNewlines mesStr) }⟩
          key es hkey with ⟨es1, hes1, hsub1⟩
        rcases this.2.2.1 key es1 hes1 with ⟨es2, hes2, hsub2⟩
        exact ⟨es2, hes2, fun x hx => hsub2 x (hsub1 x hx)⟩
      · intro q hq s hs
        rcases List.mem_cons.mp hq with rfl | hq'
        · rw [hmes] at hs
          obtain rfl : mesStr = s := Option.some.inj hs
          rcases groupInsert_inserted acc (normalizeNewlines mesStr)
            ⟨q.2.file_name, q.1, { q.2.message with mes := some (normalizeNewlines mesStr) }⟩
            with ⟨es1, hes1, hin1⟩
          rcases this.2.2.1 (normalizeNewlines mesStr) es1 hes1 with ⟨es2, hes2, hsub2⟩
          exact ⟨es2, hes2, hsub2 _ hin1⟩
        · exact this.2.2.2 q hq' s hs

/-- C5. `groupMessagesByContent` partitions the messages of one depth by
exact CR-LF-normalized text: the group keys are pairwise distinct (so all
messages sharing a normalized text collapse into exactly one group,
regardless of originating log), every group member's stored text equals
the group key (so messages with different normalized text never share a
group), and every message whose text is present lands in the group keyed
by its normalized text. -/
theorem groupMessagesByContent_partition (messages : List DepthEntry) :
    (((groupMessagesByContent messages).map Prod.fst).Nodup)
    ∧ (∀ ke ∈ groupMessagesByContent messages, ∀ x ∈ ke.2,
        x.message.mes = some ke.1)
    ∧ (∀ p ∈ messages.enum, ∀ s, p.2.message.mes = some s →
        ∃ es, (normalizeNewlines s, es) ∈ groupMessagesByContent messages ∧
          (⟨p.2.file_name, p.1,
            { p.2.message with mes := some (normalizeNewlines s) }⟩ : GroupEntry) ∈ es) := by
  have h := groupFold_inv messages.enum [] (by simp) (by simp)
  exact ⟨h.1, h.2.1, h.2.2.2⟩

/-- Witness for C5: on a concrete depth group with a shared text, the
shared text keys a single group containing both members. -/
theorem groupMessagesByContent_partition_witness :
    (⟨"b.jsonl", 1,
      { mes := some "hi" : Message }⟩ : DepthEntry).message.mes = some "hi" ∧
    ∃ es, (normalizeNewlines "hi", es) ∈
        groupMessagesByContent
          [⟨"a.jsonl", 0, { mes := some "hi" }⟩,
           ⟨"b.jsonl", 0, { mes := some "hi" }⟩] ∧
      (⟨"b.jsonl", 1,
        { { mes := some "hi" : Message } with
            mes := some (normalizeNewlines "hi") }⟩ : GroupEntry) ∈ es :=
  ⟨rfl,
    (groupMessagesByContent_partition
      [⟨"a.jsonl", 0, { mes := some "hi" }⟩,
       ⟨"b.jsonl", 0, { mes := some "hi" }⟩]).2.2
      (1, ⟨"b.jsonl", 0, { mes := some "hi" }⟩) (by decide) "hi" rfl⟩

/-! ### Extraction lemmas for element lists -/

theorem nodeDatas_append (a b : List Element) :
    nodeDatas (a ++ b) = nodeDatas a ++ nodeDatas b := by
  simp [nodeDatas]

theorem edgeDatas_append (a b : List Element) :
    edgeDatas (a ++ b) = edgeDatas a ++ edgeDatas b := by
  simp [edgeDatas]

theorem nodeDatas_cons_node (g : String) (n : NodeData) (sw : Option SwipeData)
    (es : List Element) :
    nodeDatas ({ group := g, data := .nodeData n sw } :: es) = n :: nodeDatas es := by
  simp [nodeDatas]

theorem nodeDatas_cons_edge (g : String) (e : EdgeData) (es : List Element) :
    nodeDatas ({ group := g, data := .edgeData e } :: es) = nodeDatas es := by
  simp [nodeDatas]

theorem nodeDatas_cons_root (g : String) (nm : String) (sw : Option SwipeData)
    (bc : Option String) (es : List Element) :
    nodeDatas ({ group := g, data := .rootData nm sw bc } :: es) = nodeDatas es := by
  simp [nodeDatas]

theorem edgeDatas_cons_node (g : String) (n : NodeData) (sw : Option SwipeData)
    (es : List Element) :
    edgeDatas ({ group := g, data := .nodeData n sw } :: es) = edgeDatas es := by
  simp [edgeDatas]

theorem edgeDatas_cons_edge (g : String) (e : EdgeData) (es : List Element) :
    edgeDatas ({ group := g, data := .edgeData e } :: es) = e :: edgeDatas es := by
  simp [edgeDatas]

theorem edgeDatas_cons_root (g : String) (nm : String) (sw : Option SwipeData)
    (bc : Option String) (es : List Element) :
    edgeDatas ({ group := g, data := .rootData nm sw bc } :: es) = edgeDatas es := by
  simp [edgeDatas]

/-! ### Frame lemmas for the member loop -/

theorem swipeFold_frame (node : NodeData) (p : String) (allSwipes : List String)
    (l : List String) (s : BGState) :
    (l.foldl (swipeCreateStep node p allSwipes) s).cyElements = s.cyElements
    ∧ (l.foldl (swipeCreateStep node p allSwipes) s).previousNodes = s.previousNodes
    ∧ (l.foldl (swipeCreateStep node p allSwipes) s).rngCtr = s.rngCtr
    ∧ s.keyCounter ≤ (l.foldl (swipeCreateStep node p allSwipes) s).keyCounter := by
  refine foldl_inv (fun st => st.cyElements = s.cyElements
    ∧ st.previousNodes = s.previousNodes ∧ st.rngCtr = s.rngCtr
    ∧ s.keyCounter ≤ st.keyCounter) _ l s ⟨rfl, rfl, rfl, Nat.le_refl _⟩ ?_
  intro a b _ ha
  refine ⟨?_, ?_, ?_, ?_⟩ <;> simp [swipeCreateStep, ha.1, ha.2.1, ha.2.2.1]
  exact Nat.le_succ_of_le ha.2.2.2

theorem processMemberSwipes_frame (messageId : Nat) (text : String)
    (allSwipes uniqueSwipes : List String) (node : NodeData)
    (parentNodeId : String) (su : BGState × List String) :
    (processMemberSwipes messageId text allSwipes uniqueSwipes node parentNodeId su).1.cyElements
      = su.1.cyElements
    ∧ (processMemberSwipes messageId text allSwipes uniqueSwipes node parentNodeId su).1.previousNodes
      = su.1.previousNodes
    ∧ (processMemberSwipes messageId text allSwipes uniqueSwipes node parentNodeId su).1.rngCtr
      = su.1.rngCtr
    ∧ su.1.keyCounter ≤
      (processMemberSwipes messageId text allSwipes uniqueSwipes node parentNodeId su).1.keyCounter := by
  unfold processMemberSwipes
  split
  · exact swipeFold_frame node parentNodeId allSwipes uniqueSwipes
      { su.1 with
        parentSwipeData := swipeBranchPSD text uniqueSwipes parentNodeId su.1.parentSwipeData }
  · exact ⟨rfl, rfl, rfl, Nat.le_refl _⟩

theorem processMember_cyElements (messageId : Nat) (nodeId text : String)
    (allSwipes uniqueSwipes : List String) (node : NodeData)
    (su : BGState × List String) (ge : GroupEntry) :
    (processMember messageId nodeId text allSwipes uniqueSwipes node su ge).1.cyElements
      = su.1.cyElements ++
        [{ group := "nodes", data := .nodeData node none },
         { group := "edges", data := .edgeData
            { id := "edge" ++ Nat.repr (processMemberSwipes messageId text allSwipes
                uniqueSwipes node
                ((lookupA su.1.previousNodes ge.file_name).getD "undefined") su).1.keyCounter,
              source := (lookupA su.1.previousNodes ge.file_name).getD "undefined",
              target := nodeId } }] := by
  unfold processMember
  dsimp only
  rw [(processMemberSwipes_frame messageId text allSwipes uniqueSwipes node
    ((lookupA su.1.previousNodes ge.file_name).getD "undefined") su).1]

theorem memberFold_count (messageId : Nat) (nodeId text : String)
    (allSwipes uniqueSwipes : List String) (node : NodeData) :
    ∀ (grp : List GroupEntry) (su : BGState × List String),
      ∃ newElems : List Element,
        (grp.foldl (processMember messageId nodeId text allSwipes uniqueSwipes node) su).1.cyElements
          = su.1.cyElements ++ newElems
        ∧ nodeDatas newElems = List.replicate grp.length node
        ∧ (edgeDatas newElems).length = grp.length
        ∧ (∀ ed ∈ edgeDatas newElems, ed.target = nodeId)
  | [], su => ⟨[], by simp, by simp [nodeDatas], by simp [edgeDatas], by simp [edgeDatas]⟩
  | ge :: t, su => by
    obtain ⟨rest, hcy, hn, hel, het⟩ := memberFold_count messageId nodeId text
      allSwipes uniqueSwipes node t
      (processMember messageId nodeId text allSwipes uniqueSwipes node su ge)
    rw [List.foldl_cons] at *
    refine ⟨[{ group := "nodes", data := .nodeData node none },
       { group := "edges", data := .edgeData
          { id := "edge" ++ Nat.repr (processMemberSwipes messageId text allSwipes
              uniqueSwipes node
              ((lookupA su.1.previousNodes ge.file_name).getD "undefined") su).1.keyCounter,
            source := (lookupA su.1.previousNodes ge.file_name).getD "undefined",
            target := nodeId } }] ++ rest, ?_, ?_, ?_, ?_⟩
    · rw [hcy, processMember_cyElements]
      simp
    · rw [List.cons_append, nodeDatas_cons_node, List.singleton_append,
        nodeDatas_cons_edge, hn, List.length_cons, List.replicate_succ]
    · rw [List.cons_append, edgeDatas_cons_node, List.singleton_append,
        edgeDatas_cons_edge, List.length_cons, hel, List.length_cons]
    · intro ed hed
      rw [List.cons_append, edgeDatas_cons_node, List.singleton_append,
        edgeDatas_cons_edge] at hed
      rcases List.mem_cons.mp hed with rfl | hed'
      · rfl
      · exact het ed hed' 

/-- C10. Processing one content partition with `k` members appends, per
member, one node element carrying the partition's single synthesized node
(hence `k` node records with the same id, duplicates whenever `k > 1`)
together with one incoming edge targeting that id — `k` node entries and
`k` edges in total, and nothing else. -/
theorem processGroup_appends (messageId : Nat) (lens : List (String × Nat))
    (amb : Nat → ℚ) (s : BGState) (text : String) (grp : List GroupEntry) :
    ∃ newElems : List Element,
      (processGroup messageId lens amb s (text, grp)).cyElements
        = s.cyElements ++ newElems
      ∧ nodeDatas newElems =
          List.replicate grp.length
            (createNode ("message" ++ Nat.repr s.keyCounter) messageId text grp lens
              amb s.rngCtr).1
      ∧ (createNode ("message" ++ Nat.repr s.keyCounter) messageId text grp lens
          amb s.rngCtr).1.id = "message" ++ Nat.repr s.keyCounter
      ∧ (edgeDatas newElems).length = grp.length
      ∧ (∀ ed ∈ edgeDatas newElems, ed.target = "message" ++ Nat.repr s.keyCounter) := by
  obtain ⟨newElems, hcy, hn, hel, het⟩ := memberFold_count messageId
    ("message" ++ Nat.repr s.keyCounter) text
    (if messageId = 0 then []
     else grp.foldl (fun acc ge => acc ++ ge.message.swipes) [])
    (if messageId = 0 then []
     else (jsSetDedup (if messageId = 0 then []
        else grp.foldl (fun acc ge => acc ++ ge.message.swipes) [])).filter
       (fun t => t != text))
    (createNode ("message" ++ Nat.repr s.keyCounter) messageId text grp lens
      amb s.rngCtr).1
    grp
    ({ s with rngCtr := (createNode ("message" ++ Nat.repr s.keyCounter) messageId
        text grp lens amb s.rngCtr).2 }, [])
  unfold processGroup
  dsimp only
  exact ⟨newElems, hcy, hn, rfl, hel, het⟩

/-! ### `createNode` lemmas and claim C6 -/

theorem createNode_id (nodeId : String) (messageId : Nat) (text : String)
    (group : List GroupEntry) (lens : List (String × Nat)) (amb : Nat → ℚ)
    (ctr : Nat) :
    (createNode nodeId messageId text group lens amb ctr).1.id = nodeId := rfl

theorem createNode_chat_depth (nodeId : String) (messageId : Nat) (text : String)
    (group : List GroupEntry) (lens : List (String × Nat)) (amb : Nat → ℚ)
    (ctr : Nat) :
    (createNode nodeId messageId text group lens amb ctr).1.chat_depth = messageId := rfl

/-- When no member matches either bookmark format, the node is not a
checkpoint and carries no target name. -/
theorem createNode_no_candidate (nodeId : String) (messageId : Nat) (text : String)
    (group : List GroupEntry) (lens : List (String × Nat)) (amb : Nat → ℚ)
    (ctr : Nat) (h : group.find? (fun ge => bookmarkMatch ge.message) = none) :
    (createNode nodeId messageId text group lens amb ctr).1.isBookmark = false
    ∧ (createNode nodeId messageId text group lens amb ctr).1.bookmarkName = none := by
  unfold createNode
  rw [h]
  exact ⟨rfl, rfl⟩

/-- When the first matching member is `ge`, the node's checkpoint state is
determined by `ge` alone: its target name is `ge`'s explicit link when
that is truthy, otherwise the legacy extraction from `ge`'s text, and the
checkpoint survives exactly when that target names a known log. -/
theorem createNode_candidate (nodeId : String) (messageId : Nat) (text : String)
    (group : List GroupEntry) (lens : List (String × Nat)) (amb : Nat → ℚ)
    (ctr : Nat) (ge : GroupEntry)
    (h : group.find? (fun g => bookmarkMatch g.message) = some ge) :
    (createNode nodeId messageId text group lens amb ctr).1.isBookmark
      = hasKey lens
          (jsShowOpt (if linkTruthy ge.message.bookmark_link then ge.message.bookmark_link
            else extractBookmarkName (ge.message.mes.getD "")) ++ ".jsonl")
    ∧ ((createNode nodeId messageId text group lens amb ctr).1.isBookmark = true →
        (createNode nodeId messageId text group lens amb ctr).1.bookmarkName
          = (if linkTruthy ge.message.bookmark_link then ge.message.bookmark_link
             else extractBookmarkName (ge.message.mes.getD ""))) := by
  unfold createNode
  rw [h]
  dsimp only
  by_cases hl : linkTruthy ge.message.bookmark_link = true
  · simp only [hl, if_true]
    by_cases hk : hasKey lens (jsShowOpt ge.message.bookmark_link ++ ".jsonl") = true
    · simp [hk]
    · simp [hk]
  · simp only [Bool.not_eq_true] at hl
    simp only [hl, Bool.false_eq_true, if_false]
    by_cases hk : hasKey lens
        (jsShowOpt (extractBookmarkName (ge.message.mes.getD "")) ++ ".jsonl") = true
    · simp [hk]
    · simp [hk]

/-- `find?` returns the first element satisfying the predicate. -/
theorem find?_of_first {α : Type} (p : α → Bool) :
    ∀ (l : List α) (i : Nat) (a : α), l.get? i = some a → p a = true →
      (∀ j b, j < i → l.get? j = some b → p b = false) → l.find? p = some a := by
  intro l
  induction l with
  | nil => intro i a hget; simp at hget
  | cons x t ih =>
    intro i a hget hp hmin
    match i with
    | 0 =>
      simp only [List.get?] at hget
      injection hget with hxa
      subst hxa
      simp [List.find?, hp]
    | k + 1 =>
      have hx : p x = false := hmin 0 x (by omega) rfl
      rw [List.find?, hx]
      exact ih k a hget hp (fun j b hj hb => hmin (j + 1) b (by omega) hb)

/-- C6 (amended).  Checkpoint detection selects the FIRST partition
member (in member order) whose message matches either bookmark format —
not current-format members before legacy ones.  The node is a
non-checkpoint when no member matches either format; when a member is
selected, the target name comes from its explicit checkpoint-target
field when that is truthy, otherwise from the legacy textual extraction,
and the checkpoint stands exactly when that target names a known log. -/
theorem createNode_first_match (nodeId : String) (messageId : Nat) (text : String)
    (group : List GroupEntry) (lens : List (String × Nat)) (amb : Nat → ℚ)
    (ctr : Nat) :
    ((∀ ge ∈ group, bookmarkMatch ge.message = false) →
      (createNode nodeId messageId text group lens amb ctr).1.isBookmark = false
      ∧ (createNode nodeId messageId text group lens amb ctr).1.bookmarkName = none)
    ∧ (∀ (i : Nat) (ge : GroupEntry), group.get? i = some ge →
        bookmarkMatch ge.message = true →
        (∀ (j : Nat) (gj : GroupEntry), j < i → group.get? j = some gj →
          bookmarkMatch gj.message = false) →
        (createNode nodeId messageId text group lens amb ctr).1.isBookmark
          = hasKey lens
              (jsShowOpt (if linkTruthy ge.message.bookmark_link
                then ge.message.bookmark_link
                else extractBookmarkName (ge.message.mes.getD "")) ++ ".jsonl")
        ∧ ((createNode nodeId messageId text group lens amb ctr).1.isBookmark = true →
            (createNode nodeId messageId text group lens amb ctr).1.bookmarkName
              = (if linkTruthy ge.message.bookmark_link then ge.message.bookmark_link
                 else extractBookmarkName (ge.message.mes.getD "")))) := by
  constructor
  · intro hall
    apply createNode_no_candidate
    rw [List.find?_eq_none]
    intro ge hge
    simp [hall ge hge]
  · intro i ge hget hp hmin
    exact createNode_candidate nodeId messageId text group lens amb ctr ge
      (find?_of_first (fun g => bookmarkMatch g.message) group i ge hget hp hmin)

/-- Witness for C6 (amended) at a concrete two-member group whose first
member is a legacy bookmark. -/
theorem createNode_first_match_witness :
    ((createNode "n" 0 "t" exGrpPrec [("leg.jsonl", 1), ("cur.jsonl", 1)] exAmb 0).1.isBookmark
      = hasKey [("leg.jsonl", 1), ("cur.jsonl", 1)]
          (jsShowOpt (if linkTruthy (⟨"a.jsonl", 0, exLegacyMsg⟩ : GroupEntry).message.bookmark_link
            then (⟨"a.jsonl", 0, exLegacyMsg⟩ : GroupEntry).message.bookmark_link
            else extractBookmarkName
              ((⟨"a.jsonl", 0, exLegacyMsg⟩ : GroupEntry).message.mes.getD "")) ++ ".jsonl"))
    ∧ ((createNode "n" 0 "t" exGrpPrec [("leg.jsonl", 1), ("cur.jsonl", 1)] exAmb 0).1.isBookmark = true →
        (createNode "n" 0 "t" exGrpPrec [("leg.jsonl", 1), ("cur.jsonl", 1)] exAmb 0).1.bookmarkName
          = (if linkTruthy (⟨"a.jsonl", 0, exLegacyMsg⟩ : GroupEntry).message.bookmark_link
             then (⟨"a.jsonl", 0, exLegacyMsg⟩ : GroupEntry).message.bookmark_link
             else extractBookmarkName
               ((⟨"a.jsonl", 0, exLegacyMsg⟩ : GroupEntry).message.mes.getD ""))) :=
  (createNode_first_match "n" 0 "t" exGrpPrec [("leg.jsonl", 1), ("cur.jsonl", 1)]
    exAmb 0).2 0 ⟨"a.jsonl", 0, exLegacyMsg⟩ (by decide) (by decide)
    (fun j gj hj _ => absurd hj (by omega))

/-- C6 counterexample: in `exGrpPrec` the second member carries the
current-format link `cur` while the first member matches only the legacy
textual format; the claimed precedence (current format first) would give
the target `cur`, but `createNode` selects the first matching member and
produces the legacy target `leg`. -/
theorem createNode_precedence_counterexample :
    bookmarkMatch exLegacyMsg = true
    ∧ exLegacyMsg.bookmark_link = none
    ∧ linkTruthy (exMsgCp "t" "cur").bookmark_link = true
    ∧ (createNode "n" 0 "t" exGrpPrec [("leg.jsonl", 1), ("cur.jsonl", 1)] exAmb 0).1.isBookmark = true
    ∧ (createNode "n" 0 "t" exGrpPrec [("leg.jsonl", 1), ("cur.jsonl", 1)] exAmb 0).1.bookmarkName = some "leg"
    ∧ (some "leg" : Option String) ≠ some "cur" := by
  refine ⟨by decide, rfl, by decide, ?_, ?_, by decide⟩ <;> decide

/-! ### Claim C7: the membership map -/

theorem foldl_assocSet_lookup_notmem (mk : GroupEntry → SessionInfo) :
    ∀ (es : List GroupEntry) (acc : List (String × SessionInfo)) (k : String),
      (∀ ge ∈ es, ge.file_name ≠ k) →
      lookupA (es.foldl (fun cs g => assocSet cs g.file_name (mk g)) acc) k
        = lookupA acc k := by
  intro es
  induction es with
  | nil => intro acc k _; rfl
  | cons g t ih =>
    intro acc k h
    rw [List.foldl_cons, ih _ k (fun ge hge => h ge (by simp [hge])),
      lookupA_assocSet_ne _ _ _ _ (fun hk => h g (by simp) hk.symm)]

theorem foldl_assocSet_lookup (mk : GroupEntry → SessionInfo) :
    ∀ (es : List GroupEntry) (acc : List (String × SessionInfo)) (ge : GroupEntry),
      ge ∈ es → (es.map GroupEntry.file_name).Nodup →
      lookupA (es.foldl (fun cs g => assocSet cs g.file_name (mk g)) acc) ge.file_name
        = some (mk ge) := by
  intro es
  induction es with
  | nil => intro acc ge h; simp at h
  | cons g t ih =>
    intro acc ge hge hnd
    simp only [List.map_cons, List.nodup_cons] at hnd
    rcases List.mem_cons.mp hge with rfl | hge'
    · rw [List.foldl_cons,
        foldl_assocSet_lookup_notmem mk t _ ge.file_name
          (fun x hx hxk => hnd.1 (hxk ▸ List.mem_map_of_mem GroupEntry.file_name hx)),
        lookupA_assocSet_self]
    · rw [List.foldl_cons]
      exact ih _ ge hge' hnd.2

/-- Generic member-property lemma for the grouping fold: every member of
every group satisfies `P` when freshly inserted members do. -/
theorem groupFold_members (P : GroupEntry → Prop) :
    ∀ (l : List (Nat × DepthEntry)) (acc : List (String × List GroupEntry)),
      (∀ ke ∈ acc, ∀ x ∈ ke.2, P x) →
      (∀ p ∈ l, ∀ s, p.2.message.mes = some s →
        P ⟨p.2.file_name, p.1, { p.2.message with mes := some (normalizeNewlines s) }⟩) →
      ∀ ke ∈ l.foldl groupStep acc, ∀ x ∈ ke.2, P x := by
  intro l
  induction l with
  | nil => intro acc hacc _; exact hacc
  | cons p t ih =>
    intro acc hacc hnew
    rw [List.foldl_cons]
    rcases hmes : p.2.message.mes with _ | mesStr
    · have hstep : groupStep acc p = acc := by simp [groupStep, hmes]
      rw [hstep]
      exact ih acc hacc (fun q hq s hs => hnew q (by simp [hq]) s hs)
    · have hstep : groupStep acc p = groupInsert acc (normalizeNewlines mesStr)
          ⟨p.2.file_name, p.1, { p.2.message with mes := some (normalizeNewlines mesStr) }⟩ := by
        simp [groupStep, hmes]
      rw [hstep]
      exact ih _
        (groupInsert_member_key (fun _ x => P x) acc _ _ hacc
          (hnew p (by simp) mesStr hmes))
        (fun q hq s hs => hnew q (by simp [hq]) s hs)

/-- Members of the groups of a depth list point back at their position in
that list. -/
theorem groupMembers_index (messages : List DepthEntry) :
    ∀ ke ∈ groupMessagesByContent messages, ∀ x ∈ ke.2,
      ∃ de : DepthEntry, messages.get? x.index = some de
        ∧ de.file_name = x.file_name := by
  apply groupFold_members
    (fun x => ∃ de : DepthEntry, messages.get? x.index = some de
      ∧ de.file_name = x.file_name)
  · simp
  · intro p hp s _
    exact ⟨p.2, by
      have := List.mem_enum_iff_getElem?.mp hp
      simpa [List.get?_eq_getElem?] using this, rfl⟩

/-- C7 (amended).  The membership map of a node contains one entry per
log name in its partition, recording the node's depth, that log's total
length, and the member's position within the DEPTH GROUP (its index among
all messages at that depth) — not its position within the partition. -/
theorem createNode_membership_map (messages : List DepthEntry) (nodeId : String)
    (messageId : Nat) (text : String) (es : List GroupEntry)
    (lens : List (String × Nat)) (amb : Nat → ℚ) (ctr : Nat)
    (hmem : (text, es) ∈ groupMessagesByContent messages)
    (hnd : (es.map GroupEntry.file_name).Nodup)
    (ge : GroupEntry) (hge : ge ∈ es) :
    lookupA (createNode nodeId messageId text es lens amb ctr).1.chat_sessions
        ge.file_name
      = some { messageId := messageId, indexInGroup := ge.index,
               length := lookupA lens ge.file_name }
    ∧ ∃ de : DepthEntry, messages.get? ge.index = some de
        ∧ de.file_name = ge.file_name := by
  constructor
  · have hcs : (createNode nodeId messageId text es lens amb ctr).1.chat_sessions
        = es.foldl (fun cs g => assocSet cs g.file_name
            { messageId := messageId, indexInGroup := g.index,
              length := lookupA lens g.file_name }) [] := rfl
    rw [hcs]
    exact foldl_assocSet_lookup
      (fun g => { messageId := messageId, indexInGroup := g.index,
                  length := lookupA lens g.file_name }) es [] ge hge hnd
  · exact groupMembers_index messages (text, es) hmem ge hge

/-- Witness for C7 (amended) on `exDepthGroup`: the member of the `x`
partition coming from log `c.jsonl` records depth-group index 2. -/
theorem createNode_membership_map_witness :
    lookupA (createNode "n" 0 "x" exGrpX
        [("a.jsonl", 1), ("b.jsonl", 1), ("c.jsonl", 1)] exAmb 0).1.chat_sessions
        "c.jsonl"
      = some { messageId := 0, indexInGroup := 2,
               length := lookupA [("a.jsonl", 1), ("b.jsonl", 1), ("c.jsonl", 1)] "c.jsonl" }
    ∧ ∃ de : DepthEntry, exDepthGroup.get? 2 = some de ∧ de.file_name = "c.jsonl" :=
  createNode_membership_map exDepthGroup "n" 0 "x" exGrpX
    [("a.jsonl", 1), ("b.jsonl", 1), ("c.jsonl", 1)] exAmb 0
    (by decide) (by decide) ⟨"c.jsonl", 2, { mes := some "x" }⟩ (by decide)

/-- C7 counterexample: in the `x` partition of `exDepthGroup`, the member
from log `c.jsonl` sits at position 1 within the partition, but its
membership record stores `indexInGroup = 2` — the position within the
depth group — so the recorded value is not the position within the
partition. -/
theorem createNode_membership_map_counterexample :
    exGrpX.get? 1 = some ⟨"c.jsonl", 2, { mes := some "x" }⟩
    ∧ ("x", exGrpX) ∈ groupMessagesByContent exDepthGroup
    ∧ lookupA (createNode "n" 0 "x" exGrpX
        [("a.jsonl", 1), ("b.jsonl", 1), ("c.jsonl", 1)] exAmb 0).1.chat_sessions
        "c.jsonl"
      = some { messageId := 0, indexInGroup := 2, length := some 1 }
    ∧ (2 : Nat) ≠ 1 := by
  refine ⟨by decide, by decide, by decide, by decide⟩


/-! ### Preservation of stable properties through the highlighter -/

theorem lookupA_mem {α : Type} (m : List (String × α)) (k : String) (v : α)
    (h : lookupA m k = some v) : (k, v) ∈ m := by
  induction m with
  | nil => simp [lookupA] at h
  | cons p t ih =>
    by_cases hp : p.1 = k
    · rw [lookupA, if_pos hp] at h
      injection h with hv
      exact List.mem_cons.mpr (Or.inl (by rw [← hp, ← hv]))
    · rw [lookupA, if_neg hp] at h
      exact List.mem_cons.mpr (Or.inr (ih h))

theorem markEdgeAt_pres (P : Element → Prop) (hs : decorStable P)
    (raw : List Element) (j : Nat) (c b : Option String) (t z : Nat)
    (h : ∀ e ∈ raw, P e) : ∀ e ∈ markEdgeAt raw j c b t z, P e := by
  intro e he
  rw [markEdgeAt] at he
  rcases hj : raw.get? j with _ | el
  · rw [hj] at he
    exact h e he
  · rw [hj] at he
    dsimp only at he
    cases hd : el.data with
    | rootData nm sw bc =>
      rw [hd] at he
      exact h e he
    | nodeData n sw =>
      rw [hd] at he
      exact h e he
    | edgeData ed =>
      rw [hd] at he
      rcases List.mem_or_eq_of_mem_set he with he' | rfl
      · exact h e he'
      · exact hs.1 el ed c b t z hd (h el (List.get?_mem hj))

theorem setBorderAll_pres (P : Element → Prop) (hs : decorStable P)
    (raw : List Element) (id : String) (col : Option String)
    (h : ∀ e ∈ raw, P e) : ∀ e ∈ setBorderAll raw id col, P e := by
  intro e' he'
  rcases List.mem_map.mp he' with ⟨e, he, rfl⟩
  by_cases hc : (e.group == "nodes" && dataId e.data == id) = true
  · rw [if_pos hc]
    cases hd : e.data with
    | rootData nm sw bc => exact hs.2.1 e nm sw bc col hd (h e he)
    | nodeData n sw => exact hs.2.2 e n sw col hd (h e he)
    | edgeData ed =>
      have he2 : ({ e with data := ElemData.edgeData ed } : Element) = e := by
        rw [← hd]
      rw [he2]
      exact h e he
  · rw [if_neg hc]
    exact h e he

theorem walkAux_pres (P : Element → Prop) (hs : decorStable P)
    (bColor bName : Option String) (startIdx : Nat) :
    ∀ (fuel : Nat) (raw : List Element) (curIdx z thick : Nat)
      (marked : List String), (∀ e ∈ raw, P e) →
      ∀ e ∈ (walkAux bColor bName startIdx fuel raw curIdx z thick marked).raw, P e := by
  intro fuel
  induction fuel with
  | zero => intro raw curIdx z thick marked h; exact h
  | succ f ih =>
    intro raw curIdx z thick marked h
    rw [walkAux]
    by_cases hb : (curIdx != startIdx && dataIsBookmark (elemAtD raw curIdx).data) = true
    · rw [if_pos hb]
      exact h
    · rw [if_neg hb]
      rcases hfind : findIncomingIdx raw (dataId (elemAtD raw curIdx).data) with _ | j
      · exact h
      · dsimp only
        have h2 := setBorderAll_pres P hs
          (markEdgeAt raw j bColor bName thick z)
          (dataId (elemAtD raw curIdx).data) bColor
          (markEdgeAt_pres P hs raw j bColor bName thick z h)
        rcases hsrc : findNodeIdx (setBorderAll (markEdgeAt raw j bColor bName thick z)
            (dataId (elemAtD raw curIdx).data) bColor)
            (match (elemAtD raw j).data with
             | .edgeData e => e.source
             | _ => "") with _ | k
        · exact h2
        · exact ih _ k (z + 1) (min (thick + 1) 60)
            (marked ++ [dataId (elemAtD raw j).data]) h2

theorem walkFrom_pres (P : Element → Prop) (hs : decorStable P)
    (raw : List Element) (i : Nat) (h : ∀ e ∈ raw, P e) :
    ∀ e ∈ (walkFrom raw i).raw, P e :=
  walkAux_pres P hs _ _ i (raw.length + 2) raw i 1000 40 [] h

theorem highlightCheckpointPaths_pres (P : Element → Prop) (hs : decorStable P)
    (raw : List Element) (h : ∀ e ∈ raw, P e) :
    ∀ e ∈ highlightCheckpointPaths raw, P e := by
  unfold highlightCheckpointPaths
  exact foldl_inv (fun acc => ∀ e ∈ acc, P e) _ (bookmarkIndices raw) raw h
    (fun acc i _ ha => walkFrom_pres P hs acc i ha)

/-! ### The light invariant: dead links and `currentSwipeIndex` -/

theorem createNode_bookmark_ok (nodeId : String) (messageId : Nat) (text : String)
    (group : List GroupEntry) (lens : List (String × Nat)) (amb : Nat → ℚ)
    (ctr : Nat)
    (h : (createNode nodeId messageId text group lens amb ctr).1.isBookmark = true) :
    hasKey lens
      (jsShowOpt (createNode nodeId messageId text group lens amb ctr).1.bookmarkName
        ++ ".jsonl") = true := by
  rcases hf : group.find? (fun g => bookmarkMatch g.message) with _ | ge
  · rw [(createNode_no_candidate nodeId messageId text group lens amb ctr hf).1] at h
    exact absurd h (by simp)
  · have hc := createNode_candidate nodeId messageId text group lens amb ctr ge hf
    rw [hc.2 h]
    rw [hc.1] at h
    exact h

theorem processMember_parentSwipeData (messageId : Nat) (nodeId text : String)
    (allSwipes uniqueSwipes : List String) (node : NodeData)
    (su : BGState × List String) (ge : GroupEntry) :
    (processMember messageId nodeId text allSwipes uniqueSwipes node su ge).1.parentSwipeData
      = (processMemberSwipes messageId text allSwipes uniqueSwipes node
          ((lookupA su.1.previousNodes ge.file_name).getD "undefined") su).1.parentSwipeData := rfl

theorem swipeFold_psd (node : NodeData) (p : String) (allSwipes : List String)
    (l : List String) (s : BGState)
    (h : ∀ q ∈ s.parentSwipeData, q.2.currentSwipeIndex = -1) :
    ∀ q ∈ (l.foldl (swipeCreateStep node p allSwipes) s).parentSwipeData,
      q.2.currentSwipeIndex = -1 := by
  refine foldl_inv (fun st => ∀ q ∈ st.parentSwipeData, q.2.currentSwipeIndex = -1)
    _ l s h ?_
  intro a b _ ha q hq
  simp only [swipeCreateStep, pushStoredSwipe] at hq
  refine assocModify_values (fun v => v.currentSwipeIndex = -1) _ _ _ ha ?_ q hq
  intro v hv
  exact hv

theorem processMemberSwipes_psd (messageId : Nat) (text : String)
    (allSwipes uniqueSwipes : List String) (node : NodeData) (parentNodeId : String)
    (su : BGState × List String)
    (hidx : jsIndexOf uniqueSwipes text = -1)
    (h2 : ∀ p ∈ su.1.parentSwipeData, p.2.currentSwipeIndex = -1) :
    ∀ p ∈ (processMemberSwipes messageId text allSwipes uniqueSwipes node
        parentNodeId su).1.parentSwipeData, p.2.currentSwipeIndex = -1 := by
  unfold processMemberSwipes
  split
  · refine swipeFold_psd node parentNodeId allSwipes uniqueSwipes _ ?_
    intro p hp
    simp only [swipeBranchPSD] at hp
    refine assocModify_values (fun v => v.currentSwipeIndex = -1) _ _ _
      ?_ ?_ p hp
    · intro q hq
      split at hq
      · exact h2 q hq
      · exact assocSet_values (fun v => v.currentSwipeIndex = -1) _ _ _
          h2 hidx q hq
    · intro v hv
      exact hv
  · exact h2

theorem processMember_light (lens : List (String × Nat)) (messageId : Nat)
    (nodeId text : String) (allSwipes uniqueSwipes : List String) (node : NodeData)
    (hnode : node.isBookmark = true →
      hasKey lens (jsShowOpt node.bookmarkName ++ ".jsonl") = true)
    (hidx : jsIndexOf uniqueSwipes text = -1)
    (su : BGState × List String) (ge : GroupEntry)
    (h1 : ∀ n ∈ nodeDatas su.1.cyElements, n.isBookmark = true →
      hasKey lens (jsShowOpt n.bookmarkName ++ ".jsonl") = true)
    (h2 : ∀ p ∈ su.1.parentSwipeData, p.2.currentSwipeIndex = -1)
    (h3 : ∀ e ∈ su.1.cyElements, attachedSwipe e.data = none) :
    (∀ n ∈ nodeDatas (processMember messageId nodeId text allSwipes uniqueSwipes
        node su ge).1.cyElements, n.isBookmark = true →
      hasKey lens (jsShowOpt n.bookmarkName ++ ".jsonl") = true)
    ∧ (∀ p ∈ (processMember messageId nodeId text allSwipes uniqueSwipes
        node su ge).1.parentSwipeData, p.2.currentSwipeIndex = -1)
    ∧ (∀ e ∈ (processMember messageId nodeId text allSwipes uniqueSwipes
        node su ge).1.cyElements, attachedSwipe e.data = none) := by
  refine ⟨?_, ?_, ?_⟩
  · rw [processMember_cyElements, nodeDatas_append]
    intro n hn
    rcases List.mem_append.mp hn with hn | hn
    · exact h1 n hn
    · rw [nodeDatas_cons_node, nodeDatas_cons_edge] at hn
      rcases List.mem_cons.mp hn with rfl | hn2
      · exact hnode
      · simp [nodeDatas] at hn2
  · rw [processMember_parentSwipeData]
    exact processMemberSwipes_psd messageId text allSwipes uniqueSwipes node _ su
      hidx h2
  · rw [processMember_cyElements]
    intro e he
    rcases List.mem_append.mp he with he | he
    · exact h3 e he
    · rcases List.mem_cons.mp he with rfl | he2
      · rfl
      · rcases List.mem_singleton.mp he2 with rfl
        rfl

theorem processGroup_light (lens : List (String × Nat)) (messageId : Nat)
    (amb : Nat → ℚ) (s : BGState) (tg : String × List GroupEntry)
    (h1 : ∀ n ∈ nodeDatas s.cyElements, n.isBookmark = true →
      hasKey lens (jsShowOpt n.bookmarkName ++ ".jsonl") = true)
    (h2 : ∀ p ∈ s.parentSwipeData, p.2.currentSwipeIndex = -1)
    (h3 : ∀ e ∈ s.cyElements, attachedSwipe e.data = none) :
    (∀ n ∈ nodeDatas (processGroup messageId lens amb s tg).cyElements,
      n.isBookmark = true →
      hasKey lens (jsShowOpt n.bookmarkName ++ ".jsonl") = true)
    ∧ (∀ p ∈ (processGroup messageId lens amb s tg).parentSwipeData,
        p.2.currentSwipeIndex = -1)
    ∧ (∀ e ∈ (processGroup messageId lens amb s tg).cyElements,
        attachedSwipe e.data = none) := by
  unfold processGroup
  dsimp only
  have hidx : jsIndexOf (if messageId = 0 then []
      else (jsSetDedup (if messageId = 0 then []
        else tg.2.foldl (fun acc ge => acc ++ ge.message.swipes) [])).filter
        (fun t => t != tg.1)) tg.1 = -1 := by
    by_cases h0 : messageId = 0
    · simp [h0, jsIndexOf, jsIndexOfAux]
    · simp only [h0, if_false]
      exact jsIndexOf_filter_ne _ _
  have key := foldl_inv (fun su : BGState × List String =>
    (∀ n ∈ nodeDatas su.1.cyElements, n.isBookmark = true →
      hasKey lens (jsShowOpt n.bookmarkName ++ ".jsonl") = true)
    ∧ (∀ p ∈ su.1.parentSwipeData, p.2.currentSwipeIndex = -1)
    ∧ (∀ e ∈ su.1.cyElements, attachedSwipe e.data = none))
    (processMember messageId ("message" ++ Nat.repr s.keyCounter) tg.1
      (if messageId = 0 then []
       else tg.2.foldl (fun acc ge => acc ++ ge.message.swipes) [])
      (if messageId = 0 then []
       else (jsSetDedup (if messageId = 0 then []
         else tg.2.foldl (fun acc ge => acc ++ ge.message.swipes) [])).filter
         (fun t => t != tg.1))
      (createNode ("message" ++ Nat.repr s.keyCounter) messageId tg.1 tg.2 lens
        amb s.rngCtr).1)
    tg.2
    ({ s with rngCtr := (createNode ("message" ++ Nat.repr s.keyCounter) messageId
        tg.1 tg.2 lens amb s.rngCtr).2 }, [])
    ⟨h1, h2, h3⟩
    (fun a b _ ha =>
      processMember_light lens messageId ("message" ++ Nat.repr s.keyCounter) tg.1
        _ _ _
        (createNode_bookmark_ok ("message" ++ Nat.repr s.keyCounter) messageId tg.1
          tg.2 lens amb s.rngCtr)
        hidx a b ha.1 ha.2.1 ha.2.2)
  exact key

theorem buildGraphCore_light (allChats : List (List DepthEntry))
    (lens : List (String × Nat)) (amb : Nat → ℚ) (first : List DepthEntry) :
    (∀ n ∈ nodeDatas (buildGraphCore allChats lens amb first).cyElements,
      n.isBookmark = true →
      hasKey lens (jsShowOpt n.bookmarkName ++ ".jsonl") = true)
    ∧ (∀ p ∈ (buildGraphCore allChats lens amb first).parentSwipeData,
        p.2.currentSwipeIndex = -1)
    ∧ (∀ e ∈ (buildGraphCore allChats lens amb first).cyElements,
        attachedSwipe e.data = none) := by
  unfold buildGraphCore
  refine foldl_inv (fun s : BGState =>
    (∀ n ∈ nodeDatas s.cyElements, n.isBookmark = true →
      hasKey lens (jsShowOpt n.bookmarkName ++ ".jsonl") = true)
    ∧ (∀ p ∈ s.parentSwipeData, p.2.currentSwipeIndex = -1)
    ∧ (∀ e ∈ s.cyElements, attachedSwipe e.data = none)) _ _ _ ⟨?_, ?_, ?_⟩ ?_
  · intro n hn
    simp [initialBGState, nodeDatas] at hn
  · intro p hp
    simp [initialBGState] at hp
  · intro e he
    simp only [initialBGState] at he
    rcases List.mem_singleton.mp he with rfl
    rfl
  · intro a b _ ha
    refine foldl_inv (fun s : BGState =>
      (∀ n ∈ nodeDatas s.cyElements, n.isBookmark = true →
        hasKey lens (jsShowOpt n.bookmarkName ++ ".jsonl") = true)
      ∧ (∀ p ∈ s.parentSwipeData, p.2.currentSwipeIndex = -1)
      ∧ (∀ e ∈ s.cyElements, attachedSwipe e.data = none)) _ _ _ ha ?_
    intro a2 b2 _ ha2
    exact processGroup_light lens b.1 amb a2 b2 ha2.1 ha2.2.1 ha2.2.2

/-! ### Attachment lemmas and claims C1 and C8 -/

theorem attachSwipeData_nodeDatas (psd : List (String × SwipeData))
    (es : List Element) :
    nodeDatas (attachSwipeData psd es) = nodeDatas es := by
  unfold attachSwipeData nodeDatas
  rw [List.filterMap_map]
  apply List.filterMap_congr
  intro e _
  by_cases hg : (e.group == "nodes") = true
  · simp only [hg, if_true, Function.comp]
    rcases hl : lookupA psd (dataId e.data) with _ | sw
    · rfl
    · cases e.data <;> rfl
  · simp [Function.comp, hg]

theorem attachSwipeData_swOk (psd : List (String × SwipeData)) (es : List Element)
    (hpsd : ∀ p ∈ psd, p.2.currentSwipeIndex = -1)
    (hes : ∀ e ∈ es, attachedSwipe e.data = none) :
    ∀ e ∈ attachSwipeData psd es, ∀ sw, attachedSwipe e.data = some sw →
      sw.currentSwipeIndex = -1 := by
  intro e' he' sw hsw
  rcases List.mem_map.mp he' with ⟨e, he, rfl⟩
  by_cases hg : (e.group == "nodes") = true
  · rw [if_pos hg] at hsw
    rcases hl : lookupA psd (dataId e.data) with _ | sw0
    · rw [hl] at hsw
      rw [hes e he] at hsw
      exact absurd hsw (by simp)
    · rw [hl] at hsw
      have hmem := lookupA_mem psd (dataId e.data) sw0 hl
      cases hd : e.data with
      | rootData nm osw bc =>
        rw [hd] at hsw
        simp only [attachedSwipe] at hsw
        injection hsw with hsw
        rw [← hsw]
        exact hpsd _ hmem
      | nodeData n osw =>
        rw [hd] at hsw
        simp only [attachedSwipe] at hsw
        injection hsw with hsw
        rw [← hsw]
        exact hpsd _ hmem
      | edgeData ed =>
        rw [hd] at hsw
        simp [attachedSwipe] at hsw
  · rw [if_neg hg] at hsw
    rw [hes e he] at hsw
    exact absurd hsw (by simp)

theorem nodeData_mem_nodeDatas (es : List Element) (e : Element) (n : NodeData)
    (sw : Option SwipeData) (he : e ∈ es) (hd : e.data = .nodeData n sw) :
    n ∈ nodeDatas es :=
  List.mem_filterMap.mpr ⟨e, he, by rw [hd]⟩

theorem mem_nodeDatas (es : List Element) (n : NodeData)
    (h : n ∈ nodeDatas es) : ∃ e ∈ es, ∃ sw, e.data = .nodeData n sw := by
  rcases List.mem_filterMap.mp h with ⟨e, he, hf⟩
  refine ⟨e, he, ?_⟩
  cases hd : e.data with
  | rootData nm sw bc => rw [hd] at hf; exact absurd hf (by simp)
  | nodeData n2 sw =>
    rw [hd] at hf
    simp only [Option.some.injEq] at hf
    exact ⟨sw, by rw [hf]⟩
  | edgeData ed => rw [hd] at hf; exact absurd hf (by simp)

theorem convert_eq (h : List (String × List Message)) (ck : String) (amb : Nat → ℚ)
    (out : List Element) (hout : convertToCytoscapeElements h ck amb = some out) :
    ∃ first rest, preprocessChatSessions h = first :: rest ∧
      out = highlightCheckpointPaths
        (attachSwipeData
          (buildGraphCore (first :: rest) (h.map (fun p => (p.1, p.2.length)))
            amb first).parentSwipeData
          (buildGraphCore (first :: rest) (h.map (fun p => (p.1, p.2.length)))
            amb first).cyElements) := by
  unfold convertToCytoscapeElements buildGraph at hout
  rcases hpp : preprocessChatSessions h with _ | ⟨first, rest⟩
  · rw [hpp] at hout
    simp at hout
  · rw [hpp] at hout
    dsimp only at hout
    injection hout with hout
    exact ⟨first, rest, rfl, hout.symm⟩

/-- C1 (amended).  Every `currentSwipeIndex` the engine stores is `-1`:
the selected text is filtered out of the unique-variant list before the
index lookup, so the stored index is `-1` even when the selected text
occurs in the variant pool.  This holds for the variant set attached to
any node of the final graph, and for every entry of the per-parent
variant store of `buildGraph`. -/
theorem currentSwipeIndex_minus_one (h : List (String × List Message)) (ck : String)
    (amb : Nat → ℚ) (out : List Element)
    (hout : convertToCytoscapeElements h ck amb = some out) :
    (∀ e ∈ out, ∀ sw, attachedSwipe e.data = some sw → sw.currentSwipeIndex = -1)
    ∧ (∀ first rest, preprocessChatSessions h = first :: rest →
        ∀ p ∈ (buildGraphCore (first :: rest) (h.map (fun q => (q.1, q.2.length)))
            amb first).parentSwipeData, p.2.currentSwipeIndex = -1) := by
  obtain ⟨first, rest, hpp, rfl⟩ := convert_eq h ck amb out hout
  have hlight := buildGraphCore_light (first :: rest)
    (h.map (fun p => (p.1, p.2.length))) amb first
  constructor
  · have hstable : decorStable (fun e => ∀ sw, attachedSwipe e.data = some sw →
        sw.currentSwipeIndex = -1) := by
      refine ⟨?_, ?_, ?_⟩
      · intro el e c b t z hd hP sw hsw
        simp [markedEdgeElem, attachedSwipe] at hsw
      · intro el nm sw bc c hd hP sw2 hsw
        apply hP
        rw [hd]
        simpa [attachedSwipe] using hsw
      · intro el n sw c hd hP sw2 hsw
        apply hP
        rw [hd]
        simpa [attachedSwipe] using hsw
    exact highlightCheckpointPaths_pres _ hstable _
      (attachSwipeData_swOk _ _ hlight.2.1 hlight.2.2)
  · intro first' rest' hpp'
    rw [hpp] at hpp'
    injection hpp' with h1 h2
    subst h1
    subst h2
    exact hlight.2.1

/-- Witness for C1 (amended) on `exHistSwipes`. -/
theorem currentSwipeIndex_minus_one_witness :
    convertToCytoscapeElements exHistSwipes "k" exAmb
        = some ((convertToCytoscapeElements exHistSwipes "k" exAmb).getD [])
    ∧ (∀ e ∈ (convertToCytoscapeElements exHistSwipes "k" exAmb).getD [],
        ∀ sw, attachedSwipe e.data = some sw → sw.currentSwipeIndex = -1) :=
  ⟨by decide,
    (currentSwipeIndex_minus_one exHistSwipes "k" exAmb _ (by decide)).1⟩

/-- C1 counterexample: in `exHistSwipes` the selected text `reply` is in
its own variant pool (`message.swipes`), yet the stored
`currentSwipeIndex` on the parent node `message1` is `-1`, refuting
"`-1` exactly when the selected text is absent from the variant pool". -/
theorem currentSwipeIndex_counterexample :
    "reply" ∈ (exMsgSw "reply" ["reply", "alt"]).swipes
    ∧ (∃ es, convertToCytoscapeElements exHistSwipes "k" exAmb = some es
        ∧ ∃ e ∈ es, dataId e.data = "message1"
          ∧ ∃ sw, attachedSwipe e.data = some sw
            ∧ sw.currentSwipeIndex = -1 ∧ sw.totalSwipes = 1) := by
  decide

/-- C8.  No node of the output graph is ever marked as a checkpoint whose
target is a non-existent log: whenever a node's `isBookmark` is set, its
target name, rendered the way the dead-link check renders it and suffixed
with `.jsonl`, is among the known log names of the invocation. -/
theorem no_dead_checkpoints (h : List (String × List Message)) (ck : String)
    (amb : Nat → ℚ) (out : List Element)
    (hout : convertToCytoscapeElements h ck amb = some out) :
    ∀ n ∈ nodeDatas out, n.isBookmark = true →
      (jsShowOpt n.bookmarkName ++ ".jsonl") ∈ h.map Prod.fst := by
  obtain ⟨first, rest, hpp, rfl⟩ := convert_eq h ck amb out hout
  have hlight := buildGraphCore_light (first :: rest)
    (h.map (fun p => (p.1, p.2.length))) amb first
  have hstable : decorStable (fun e => ∀ (n : NodeData) (sw : Option SwipeData),
      e.data = .nodeData n sw → n.isBookmark = true →
      hasKey (h.map (fun p => (p.1, p.2.length)))
        (jsShowOpt n.bookmarkName ++ ".jsonl") = true) := by
    refine ⟨?_, ?_, ?_⟩
    · intro el e c b t z hd hP n sw heq
      simp [markedEdgeElem] at heq
    · intro el nm sw bc c hd hP n sw2 heq
      simp at heq
    · intro el n sw c hd hP n2 sw2 heq hb
      simp only [ElemData.nodeData.injEq] at heq
      rw [← heq.1] at hb ⊢
      exact hP n sw hd hb
  have hbase : ∀ e ∈ attachSwipeData
      (buildGraphCore (first :: rest) (h.map (fun p => (p.1, p.2.length)))
        amb first).parentSwipeData
      (buildGraphCore (first :: rest) (h.map (fun p => (p.1, p.2.length)))
        amb first).cyElements,
      ∀ (n : NodeData) (sw : Option SwipeData),
        e.data = .nodeData n sw → n.isBookmark = true →
        hasKey (h.map (fun p => (p.1, p.2.length)))
          (jsShowOpt n.bookmarkName ++ ".jsonl") = true := by
    intro e he n sw hd hb
    have hn := nodeData_mem_nodeDatas _ e n sw he hd
    rw [attachSwipeData_nodeDatas] at hn
    exact hlight.1 n hn hb
  have hfin := highlightCheckpointPaths_pres _ hstable _ hbase
  intro n hn hb
  rcases mem_nodeDatas _ n hn with ⟨e, he, sw, hd⟩
  have hk := hfin e he n sw hd hb
  rcases (hasKey_iff _ _).mp hk with ⟨v, hv⟩
  have := List.mem_map_of_mem Prod.fst hv
  simpa [List.map_map, Function.comp] using this

/-- Witness for C8 on `exHistCp`, whose checkpoints target live logs. -/
theorem no_dead_checkpoints_witness :
    convertToCytoscapeElements exHistCp "k" exAmb
        = some ((convertToCytoscapeElements exHistCp "k" exAmb).getD [])
    ∧ ∀ n ∈ nodeDatas ((convertToCytoscapeElements exHistCp "k" exAmb).getD []),
        n.isBookmark = true →
        (jsShowOpt n.bookmarkName ++ ".jsonl") ∈ exHistCp.map Prod.fst :=
  ⟨by decide, no_dead_checkpoints exHistCp "k" exAmb _ (by decide)⟩

/-! ### Claim C3: tolerance of partial input -/

theorem pushAt_length {α : Type} : ∀ (l : List (List α)) (i : Nat) (x : α),
    (pushAt l i x).length = max l.length (i + 1)
  | [], 0, x => by simp [pushAt]
  | [], n + 1, x => by
    simp [pushAt, pushAt_length [] n x]
    try omega
  | ys :: l, 0, x => by simp [pushAt]
  | ys :: l, n + 1, x => by
    simp [pushAt, pushAt_length l n x]
    try omega

theorem pushMessages_length (f : String) :
    ∀ (msgs : List Message) (acc : List (List DepthEntry)) (start : Nat),
      (pushMessages f acc msgs start).length
        = if msgs = [] then acc.length else max acc.length (start + msgs.length)
  | [], acc, start => by simp [pushMessages]
  | m :: rest, acc, start => by
    rw [pushMessages, pushMessages_length f rest _ (start + 1)]
    by_cases hr : rest = []
    · simp [hr, pushAt_length]
    · simp only [hr, if_false, pushAt_length]
      simp only [List.cons_ne_nil, if_false, List.length_cons]
      omega

theorem preprocessAux_length :
    ∀ (h : List (String × List Message)) (acc : List (List DepthEntry)),
      (∀ p ∈ h, p.2.length ≤
        (h.foldl (fun acc2 q => pushMessages q.1 acc2 q.2 0) acc).length)
      ∧ acc.length ≤
        (h.foldl (fun acc2 q => pushMessages q.1 acc2 q.2 0) acc).length := by
  intro h
  induction h with
  | nil => exact fun acc => ⟨by simp, Nat.le_refl _⟩
  | cons p t ih =>
    intro acc
    have hstep : acc.length ≤ (pushMessages p.1 acc p.2 0).length ∧
        p.2.length ≤ (pushMessages p.1 acc p.2 0).length := by
      rw [pushMessages_length]
      by_cases hp : p.2 = []
      · simp [hp]
      · simp only [hp, if_false]
        omega
    constructor
    · intro q hq
      rcases List.mem_cons.mp hq with rfl | hq'
      · exact Nat.le_trans hstep.2 (ih (pushMessages q.1 acc q.2 0)).2
      · exact (ih (pushMessages p.1 acc p.2 0)).1 q hq'
    · exact Nat.le_trans hstep.1 (ih (pushMessages p.1 acc p.2 0)).2

/-- C3 (amended).  For every input mapping in which at least one log
contains at least one message, graph construction completes without
error and returns a graph.  (For an empty mapping — or one whose logs
are all empty — `buildGraph` dereferences the undefined `allChats[0]`
and throws, see the counterexample.) -/
theorem convert_succeeds (h : List (String × List Message)) (ck : String)
    (amb : Nat → ℚ) (hne : ∃ p ∈ h, p.2 ≠ []) :
    ∃ out, convertToCytoscapeElements h ck amb = some out := by
  obtain ⟨p, hp, hpne⟩ := hne
  have hlen := (preprocessAux_length h []).1 p hp
  have hnonnil : preprocessChatSessions h ≠ [] := by
    intro hempty
    unfold preprocessChatSessions at hempty
    rw [hempty] at hlen
    simp at hlen
    exact hpne hlen
  unfold convertToCytoscapeElements buildGraph
  rcases hpp : preprocessChatSessions h with _ | ⟨first, rest⟩
  · exact absurd hpp hnonnil
  · exact ⟨_, rfl⟩

/-- Witness for C3 (amended) on `exHistTwo`. -/
theorem convert_succeeds_witness :
    (∃ p ∈ exHistTwo, p.2 ≠ [])
    ∧ ∃ out, convertToCytoscapeElements exHistTwo "k" exAmb = some out :=
  ⟨by decide, convert_succeeds exHistTwo "k" exAmb (by decide)⟩

/-- C3 counterexample: on the empty mapping — and on a mapping whose only
log is empty — `buildGraph` throws (`allChats[0]` is undefined), modelled
as `none`: construction does not return a graph. -/
theorem convert_empty_counterexample :
    convertToCytoscapeElements [] "k" exAmb = none
    ∧ convertToCytoscapeElements [("a.jsonl", [])] "k" exAmb = none := by
  exact ⟨rfl, rfl⟩

/-! ### Closed form of the transpose -/

theorem pushAt_getD {α : Type} : ∀ (l : List (List α)) (i : Nat) (x : α) (d : Nat),
    (pushAt l i x).getD d [] = (l.getD d []) ++ (if d = i then [x] else [])
  | [], 0, x, d => by cases d <;> simp [pushAt]
  | [], n + 1, x, 0 => by simp [pushAt]
  | [], n + 1, x, k + 1 => by
    simp only [pushAt, List.getD_cons_succ]
    rw [pushAt_getD [] n x k]
    simp [Nat.succ_inj]
  | ys :: l, 0, x, 0 => by simp [pushAt]
  | ys :: l, 0, x, k + 1 => by simp [pushAt]
  | ys :: l, n + 1, x, 0 => by simp [pushAt]
  | ys :: l, n + 1, x, k + 1 => by
    simp only [pushAt, List.getD_cons_succ]
    rw [pushAt_getD l n x k]
    simp [Nat.succ_inj]

theorem pushMessages_getD (f : String) :
    ∀ (msgs : List Message) (acc : List (List DepthEntry)) (start d : Nat),
      (pushMessages f acc msgs start).getD d []
        = acc.getD d [] ++
          (if start ≤ d then
            (match msgs.get? (d - start) with
             | some m => [(⟨f, d, m⟩ : DepthEntry)]
             | none => [])
           else [])
  | [], acc, start, d => by
    by_cases hs : start ≤ d <;> simp [pushMessages, hs]
  | m :: rest, acc, start, d => by
    rw [pushMessages, pushMessages_getD f rest _ (start + 1) d, pushAt_getD]
    rcases Nat.lt_trichotomy d start with hlt | heq | hgt
    · have h1 : ¬ d = start := by omega
      have h2 : ¬ start + 1 ≤ d := by omega
      have h3 : ¬ start ≤ d := by omega
      simp [h1, h2, h3]
    · subst heq
      have h2 : ¬ d + 1 ≤ d := by omega
      simp [h2, Nat.sub_self]
    · have h1 : ¬ d = start := by omega
      have h2 : start + 1 ≤ d := by omega
      have h3 : start ≤ d := by omega
      have h4 : d - start = (d - (start + 1)) + 1 := by omega
      simp only [h1, if_false, h2, if_true, h3, List.append_nil, List.append_assoc,
        List.nil_append]
      rw [h4]
      rfl

theorem preprocess_getD :
    ∀ (h : List (String × List Message)) (acc : List (List DepthEntry)) (d : Nat),
      (h.foldl (fun acc2 q => pushMessages q.1 acc2 q.2 0) acc).getD d []
        = acc.getD d [] ++
          h.filterMap (fun p => (p.2.get? d).map (fun m => (⟨p.1, d, m⟩ : DepthEntry)))
  | [], acc, d => by simp
  | p :: t, acc, d => by
    rw [List.foldl_cons, preprocess_getD t _ d, pushMessages_getD, List.filterMap_cons]
    rcases hm : p.2.get? d with _ | m <;>
      rw [List.get?_eq_getElem?] at hm <;> simp [hm]

theorem preprocessChatSessions_getD (h : List (String × List Message)) (d : Nat) :
    (preprocessChatSessions h).getD d []
      = h.filterMap (fun p => (p.2.get? d).map (fun m => (⟨p.1, d, m⟩ : DepthEntry))) := by
  unfold preprocessChatSessions
  rw [preprocess_getD]
  simp

theorem depth_entry_origin (h : List (String × List Message)) (d : Nat)
    (e : DepthEntry) (he : e ∈ (preprocessChatSessions h).getD d []) :
    ∃ p ∈ h, ∃ m, p.2.get? d = some m ∧ e = ⟨p.1, d, m⟩ := by
  rw [preprocessChatSessions_getD] at he
  rcases List.mem_filterMap.mp he with ⟨p, hp, hf⟩
  rcases hm : p.2.get? d with _ | m
  · rw [hm] at hf
    exact absurd hf (by simp)
  · rw [hm] at hf
    have he2 : (⟨p.1, d, m⟩ : DepthEntry) = e := Option.some.inj hf
    exact ⟨p, hp, m, hm, he2.symm⟩

theorem depth_files_sublist (h : List (String × List Message)) (d : Nat) :
    (((preprocessChatSessions h).getD d []).map DepthEntry.file_name).Sublist
      (h.map Prod.fst) := by
  rw [preprocessChatSessions_getD]
  induction h with
  | nil => simp
  | cons p t ih =>
    rw [List.filterMap_cons]
    rcases hm : p.2.get? d with _ | m
    · simp only [List.map_cons]
      exact ih.cons p.1
    · simp only [Option.map_some, List.map_cons]
      exact ih.cons₂ p.1

theorem depth_files_nodup (h : List (String × List Message))
    (hnd : (h.map Prod.fst).Nodup) (d : Nat) :
    (((preprocessChatSessions h).getD d []).map DepthEntry.file_name).Nodup :=
  (depth_files_sublist h d).nodup hnd

theorem depth_file_in_first (h : List (String × List Message)) (d : Nat)
    (e : DepthEntry) (he : e ∈ (preprocessChatSessions h).getD d []) :
    e.file_name ∈ ((preprocessChatSessions h).getD 0 []).map DepthEntry.file_name := by
  rcases depth_entry_origin h d e he with ⟨p, hp, m, hm, rfl⟩
  have hne : p.2 ≠ [] := by
    intro hnil
    rw [hnil] at hm
    simp at hm
  rcases hx : p.2 with _ | ⟨m0, rest⟩
  · exact absurd hx hne
  · have h0 : p.2.get? 0 = some m0 := by rw [hx]; rfl
    have : (⟨p.1, 0, m0⟩ : DepthEntry) ∈ (preprocessChatSessions h).getD 0 [] := by
      rw [preprocessChatSessions_getD]
      exact List.mem_filterMap.mpr ⟨p, hp, by rw [h0]; rfl⟩
    exact List.mem_map.mpr ⟨⟨p.1, 0, m0⟩, this, rfl⟩

/-! ### List and element helpers for the structural invariant -/

theorem set_get_self {α : Type} : ∀ (l : List α) (j : Nat) (x : α),
    l.get? j = some x → l.set j x = l
  | [], j, x, h => by simp at h
  | a :: t, 0, x, h => by
    simp only [List.get?] at h
    injection h with h
    rw [h]
    rfl
  | a :: t, j + 1, x, h => by
    simp only [List.get?] at h
    simp [List.set, set_get_self t j x h]

theorem getD_of_get? {α : Type} (l : List α) (i : Nat) (d x : α)
    (h : l.get? i = some x) : l.getD i d = x := by
  rw [List.getD_eq_getElem?_getD, ← List.get?_eq_getElem?, h]
  rfl

theorem findIdxA_some (p : Element → Bool) : ∀ (l : List Element) (i : Nat),
    findIdxA p l = some i → ∃ e, l.get? i = some e ∧ p e = true
  | [], i, h => by simp [findIdxA] at h
  | e :: t, i, h => by
    rw [findIdxA] at h
    by_cases hp : p e = true
    · rw [if_pos hp] at h
      injection h with h
      exact ⟨e, by rw [← h]; rfl, hp⟩
    · rw [if_neg hp] at h
      rcases ht : findIdxA p t with _ | i'
      · rw [ht] at h
        simp at h
      · rw [ht] at h
        injection h with h
        rcases findIdxA_some p t i' ht with ⟨e', he', hpe'⟩
        exact ⟨e', by rw [← h]; exact he', hpe'⟩

theorem findIdxA_isSome_of_mem (p : Element → Bool) :
    ∀ (l : List Element) (e : Element), e ∈ l → p e = true →
      (findIdxA p l).isSome = true
  | [], e, he, hp => by simp at he
  | a :: t, e, he, hp => by
    rw [findIdxA]
    by_cases ha : p a = true
    · rw [if_pos ha]
      rfl
    · rw [if_neg ha]
      rcases List.mem_cons.mp he with rfl | he'
      · exact absurd hp ha
      · have := findIdxA_isSome_of_mem p t e he' hp
        rcases ht : findIdxA p t with _ | i
        · rw [ht] at this
          simp at this
        · rfl

theorem filter_length_mono {α : Type} (p q : α → Bool)
    (hpq : ∀ x, p x = true → q x = true) :
    ∀ (l : List α), (l.filter p).length ≤ (l.filter q).length
  | [] => Nat.le_refl 0
  | a :: t => by
    rw [List.filter_cons, List.filter_cons]
    by_cases hp : p a = true
    · rw [if_pos hp, if_pos (hpq a hp)]
      exact Nat.succ_le_succ (filter_length_mono p q hpq t)
    · rw [if_neg hp]
      by_cases hq : q a = true
      · rw [if_pos hq]
        exact Nat.le_succ_of_le (filter_length_mono p q hpq t)
      · rw [if_neg hq]
        exact filter_length_mono p q hpq t

theorem filter_length_strict {α : Type} (p q : α → Bool)
    (hpq : ∀ x, p x = true → q x = true) :
    ∀ (l : List α) (x : α), x ∈ l → q x = true → p x = false →
      (l.filter p).length < (l.filter q).length
  | [], x, hx, _, _ => by simp at hx
  | a :: t, x, hx, hqx, hpx => by
    rw [List.filter_cons, List.filter_cons]
    rcases List.mem_cons.mp hx with rfl | hx'
    · rw [if_neg (by rw [hpx]; simp), if_pos hqx]
      exact Nat.lt_succ_of_le (filter_length_mono p q hpq t)
    · have ih := filter_length_strict p q hpq t x hx' hqx hpx
      by_cases hp : p a = true
      · rw [if_pos hp, if_pos (hpq a hp)]
        simpa using Nat.succ_lt_succ ih
      · rw [if_neg hp]
        by_cases hq : q a = true
        · rw [if_pos hq]
          exact Nat.lt_succ_of_lt ih
        · rw [if_neg hq]
          exact ih

theorem isSome_lookupA_assocSet {α : Type} (m : List (String × α)) (k k' : String)
    (v : α) (h : (lookupA m k').isSome = true) :
    (lookupA (assocSet m k v) k').isSome = true := by
  by_cases hk : k' = k
  · subst hk
    rw [lookupA_assocSet_self]
    rfl
  · rw [lookupA_assocSet_ne m k k' v hk]
    exact h

theorem edgeData_mem_edgeDatas (es : List Element) (e : Element) (ed : EdgeData)
    (he : e ∈ es) (hd : e.data = .edgeData ed) : ed ∈ edgeDatas es :=
  List.mem_filterMap.mpr ⟨e, he, by rw [hd]⟩

theorem mem_edgeDatas (es : List Element) (ed : EdgeData)
    (h : ed ∈ edgeDatas es) : ∃ e ∈ es, e.data = .edgeData ed := by
  rcases List.mem_filterMap.mp h with ⟨e, he, hf⟩
  refine ⟨e, he, ?_⟩
  cases hd : e.data with
  | rootData nm sw bc => rw [hd] at hf; exact absurd hf (by simp)
  | nodeData n2 sw => rw [hd] at hf; exact absurd hf (by simp)
  | edgeData ed2 =>
    rw [hd] at hf
    simp only [Option.some.injEq] at hf
    rw [hf]

theorem nodeSkels_append (a b : List Element) :
    nodeSkels (a ++ b) = nodeSkels a ++ nodeSkels b := by
  unfold nodeSkels
  rw [nodeDatas_append, List.map_append]

theorem edgePairs_append (a b : List Element) :
    edgePairs (a ++ b) = edgePairs a ++ edgePairs b := by
  unfold edgePairs
  rw [edgeDatas_append, List.map_append]

theorem rootCount_append (a b : List Element) :
    rootCount (a ++ b) = rootCount a + rootCount b := by
  unfold rootCount
  rw [List.filter_append, List.length_append]

theorem rootCount_pos_mem (es : List Element) (h : 0 < rootCount es) :
    ∃ e ∈ es, ∃ nm sw bc, e.data = .rootData nm sw bc := by
  unfold rootCount at h
  rcases hl : es.filter (fun e =>
      match e.data with
      | .rootData _ _ _ => true
      | _ => false) with _ | ⟨e, t⟩
  · rw [hl] at h
    simp at h
  · have hmem : e ∈ es.filter (fun e =>
        match e.data with
        | .rootData _ _ _ => true
        | _ => false) := by rw [hl]; exact List.mem_cons_self e t
    have he := List.mem_filter.mp hmem
    refine ⟨e, he.1, ?_⟩
    rcases hd : e.data with ⟨nm, sw, bc⟩ | _ | _
    · exact ⟨nm, sw, bc, rfl⟩
    · rw [hd] at he; simp at he
    · rw [hd] at he; simp at he

theorem mem_nodeSkels (es : List Element) (sk : String × Nat × Bool) :
    sk ∈ nodeSkels es ↔
      ∃ n ∈ nodeDatas es, (n.id, n.chat_depth, n.isBookmark) = sk := by
  unfold nodeSkels
  constructor
  · intro h
    rcases List.mem_map.mp h with ⟨n, hn, he⟩
    exact ⟨n, hn, he⟩
  · intro ⟨n, hn, he⟩
    exact List.mem_map.mpr ⟨n, hn, he⟩

theorem nodeSkels_length_le (es : List Element) :
    (nodeSkels es).length ≤ es.length := by
  unfold nodeSkels nodeDatas
  rw [List.length_map]
  exact List.length_filterMap_le _ _

/-! ### Decoration stripping: the highlighter preserves the skeleton -/

theorem nodeSkels_cons (e : Element) (t : List Element) :
    nodeSkels (e :: t) =
      (match e.data with
       | .nodeData n _ => [(n.id, n.chat_depth, n.isBookmark)]
       | _ => []) ++ nodeSkels t := by
  unfold nodeSkels nodeDatas
  rw [List.filterMap_cons]
  cases e.data <;> simp

theorem edgePairs_cons (e : Element) (t : List Element) :
    edgePairs (e :: t) =
      (match e.data with
       | .edgeData ed => [(ed.source, ed.target)]
       | _ => []) ++ edgePairs t := by
  unfold edgePairs edgeDatas
  rw [List.filterMap_cons]
  cases e.data <;> simp

theorem rootCount_cons (e : Element) (t : List Element) :
    rootCount (e :: t) =
      (match e.data with
       | .rootData _ _ _ => 1
       | _ => 0) + rootCount t := by
  unfold rootCount
  rw [List.filter_cons]
  cases e.data <;> simp [Nat.add_comm]

theorem stripDecor_group (e : Element) : (stripDecor e).group = e.group := rfl

theorem dataId_strip (e : Element) : dataId (stripDecor e).data = dataId e.data := by
  cases hd : e.data <;> simp [stripDecor, hd, dataId]

theorem dataIsBookmark_strip (e : Element) :
    dataIsBookmark (stripDecor e).data = dataIsBookmark e.data := by
  cases hd : e.data <;> simp [stripDecor, hd, dataIsBookmark]

theorem nodeSkels_map_strip : ∀ (l : List Element),
    nodeSkels (l.map stripDecor) = nodeSkels l
  | [] => rfl
  | e :: t => by
    rw [List.map_cons, nodeSkels_cons, nodeSkels_cons, nodeSkels_map_strip t]
    cases hd : e.data <;> simp [stripDecor, hd]

theorem edgePairs_map_strip : ∀ (l : List Element),
    edgePairs (l.map stripDecor) = edgePairs l
  | [] => rfl
  | e :: t => by
    rw [List.map_cons, edgePairs_cons, edgePairs_cons, edgePairs_map_strip t]
    cases hd : e.data <;> simp [stripDecor, hd]

theorem rootCount_map_strip : ∀ (l : List Element),
    rootCount (l.map stripDecor) = rootCount l
  | [] => rfl
  | e :: t => by
    rw [List.map_cons, rootCount_cons, rootCount_cons, rootCount_map_strip t]
    cases hd : e.data <;> simp [stripDecor, hd]

theorem nodeSkels_of_strip_eq (a b : List Element)
    (h : a.map stripDecor = b.map stripDecor) : nodeSkels a = nodeSkels b := by
  rw [← nodeSkels_map_strip a, h, nodeSkels_map_strip]

theorem edgePairs_of_strip_eq (a b : List Element)
    (h : a.map stripDecor = b.map stripDecor) : edgePairs a = edgePairs b := by
  rw [← edgePairs_map_strip a, h, edgePairs_map_strip]

theorem rootCount_of_strip_eq (a b : List Element)
    (h : a.map stripDecor = b.map stripDecor) : rootCount a = rootCount b := by
  rw [← rootCount_map_strip a, h, rootCount_map_strip]

theorem length_of_strip_eq (a b : List Element)
    (h : a.map stripDecor = b.map stripDecor) : a.length = b.length := by
  have := congrArg List.length h
  simpa using this

theorem strip_shape_root (x y : Element) (h : stripDecor x = stripDecor y)
    (nm : String) (sw : Option SwipeData) (bc : Option String)
    (hd : y.data = .rootData nm sw bc) :
    ∃ sw2 bc2, x.data = .rootData nm sw2 bc2 := by
  have hdx := congrArg Element.data h
  cases hx : x.data with
  | rootData nm2 sw2 bc2 =>
    simp only [stripDecor, hx, hd] at hdx
    injection hdx with h1 h2 h3
    subst h1
    exact ⟨sw2, bc2, rfl⟩
  | nodeData n2 sw2 => simp [stripDecor, hx, hd] at hdx
  | edgeData ed2 => simp [stripDecor, hx, hd] at hdx

theorem strip_shape_node (x y : Element) (h : stripDecor x = stripDecor y)
    (n : NodeData) (sw : Option SwipeData)
    (hd : y.data = .nodeData n sw) :
    ∃ n2, x.data = .nodeData n2 sw ∧ n2.id = n.id ∧ n2.chat_depth = n.chat_depth
      ∧ n2.isBookmark = n.isBookmark := by
  have hdx := congrArg Element.data h
  cases hx : x.data with
  | rootData nm2 sw2 bc2 => simp [stripDecor, hx, hd] at hdx
  | nodeData n2 sw2 =>
    simp only [stripDecor, hx, hd, ElemData.nodeData.injEq] at hdx
    refine ⟨n2, by rw [hdx.2], ?_, ?_, ?_⟩
    · have h1 := congrArg NodeData.id hdx.1
      exact h1
    · have h1 := congrArg NodeData.chat_depth hdx.1
      exact h1
    · have h1 := congrArg NodeData.isBookmark hdx.1
      exact h1
  | edgeData ed2 => simp [stripDecor, hx, hd] at hdx

theorem strip_shape_edge (x y : Element) (h : stripDecor x = stripDecor y)
    (ed : EdgeData) (hd : y.data = .edgeData ed) :
    ∃ ed2, x.data = .edgeData ed2 ∧ ed2.source = ed.source
      ∧ ed2.target = ed.target := by
  have hdx := congrArg Element.data h
  cases hx : x.data with
  | rootData nm2 sw2 bc2 => simp [stripDecor, hx, hd] at hdx
  | nodeData n2 sw2 => simp [stripDecor, hx, hd] at hdx
  | edgeData ed2 =>
    simp only [stripDecor, hx, hd, ElemData.edgeData.injEq] at hdx
    have h1 := congrArg EdgeData.source hdx
    have h2 := congrArg EdgeData.target hdx
    exact ⟨ed2, rfl, h1, h2⟩

theorem wf_of_strip_eq (a b : List Element)
    (h : a.map stripDecor = b.map stripDecor) (hw : wfElems b) : wfElems a := by
  intro e he
  have hmem : stripDecor e ∈ b.map stripDecor := by
    rw [← h]
    exact List.mem_map.mpr ⟨e, he, rfl⟩
  rcases List.mem_map.mp hmem with ⟨e1, he1, hs⟩
  have hgrp : e.group = e1.group := by
    have := congrArg Element.group hs
    simpa [stripDecor_group] using this.symm
  rcases hw e1 he1 with ⟨hg, ⟨nm, sw, bc, hd⟩ | ⟨nm, sw, hd⟩⟩ | ⟨hg, ed, hd⟩
  · rcases strip_shape_root e e1 hs.symm nm sw bc hd with ⟨sw2, bc2, hd2⟩
    exact Or.inl ⟨by rw [hgrp, hg], Or.inl ⟨nm, sw2, bc2, hd2⟩⟩
  · rcases strip_shape_node e e1 hs.symm nm sw hd with ⟨n2, hd2, _, _, _⟩
    exact Or.inl ⟨by rw [hgrp, hg], Or.inr ⟨n2, sw, hd2⟩⟩
  · rcases strip_shape_edge e e1 hs.symm ed hd with ⟨ed2, hd2, _, _⟩
    exact Or.inr ⟨by rw [hgrp, hg], ed2, hd2⟩

theorem graphInv_of_strip_eq (a b : List Element)
    (h : a.map stripDecor = b.map stripDecor) (hG : graphInv b) : graphInv a := by
  obtain ⟨hw, hr, he, hd, hfn, hin⟩ := hG
  rw [graphInv, nodeSkels_of_strip_eq a b h, edgePairs_of_strip_eq a b h,
    rootCount_of_strip_eq a b h]
  exact ⟨wf_of_strip_eq a b h hw, hr, he, hd, hfn, hin⟩

theorem strip_markedEdgeElem (el : Element) (e : EdgeData) (c b : Option String)
    (t z : Nat) (hd : el.data = .edgeData e) :
    stripDecor (markedEdgeElem el e c b t z) = stripDecor el := by
  simp [markedEdgeElem, stripDecor, hd]

theorem markEdgeAt_strip (raw : List Element) (j : Nat) (c b : Option String)
    (t z : Nat) :
    (markEdgeAt raw j c b t z).map stripDecor = raw.map stripDecor := by
  unfold markEdgeAt
  rcases hj : raw.get? j with _ | el
  · rfl
  · dsimp only
    cases hd : el.data with
    | rootData nm sw bc => rfl
    | nodeData n sw => rfl
    | edgeData e =>
      dsimp only
      rw [List.map_set, strip_markedEdgeElem el e c b t z hd]
      apply set_get_self
      rw [List.get?_eq_getElem?, List.getElem?_map, ← List.get?_eq_getElem?, hj]
      rfl

theorem setBorderAll_strip (raw : List Element) (id : String) (col : Option String) :
    (setBorderAll raw id col).map stripDecor = raw.map stripDecor := by
  unfold setBorderAll
  rw [List.map_map]
  apply List.map_congr_left
  intro e _
  by_cases hc : (e.group == "nodes" && dataId e.data == id) = true
  · simp only [Function.comp, hc, if_pos]
    cases hd : e.data <;> simp [stripDecor, hd]
  · simp only [Function.comp, hc, if_neg]
    rfl

theorem walkAux_strip (bC bN : Option String) (sI : Nat) :
    ∀ (fuel : Nat) (raw : List Element) (curIdx z t : Nat) (m : List String),
      ((walkAux bC bN sI fuel raw curIdx z t m).raw).map stripDecor
        = raw.map stripDecor := by
  intro fuel
  induction fuel with
  | zero =>
    intro raw curIdx z t m
    rfl
  | succ f ih =>
    intro raw curIdx z t m
    rw [walkAux]
    by_cases hbk : (curIdx != sI && dataIsBookmark (elemAtD raw curIdx).data) = true
    · rw [if_pos hbk]
    · rw [if_neg hbk]
      rcases hinc : findIncomingIdx raw (dataId (elemAtD raw curIdx).data) with _ | j
      · rfl
      · dsimp only
        rcases hfn : findNodeIdx
            (setBorderAll (markEdgeAt raw j bC bN t z)
              (dataId (elemAtD raw curIdx).data) bC)
            (match (elemAtD raw j).data with
             | .edgeData e => e.source
             | _ => "") with _ | k
        · rw [setBorderAll_strip, markEdgeAt_strip]
        · rw [ih, setBorderAll_strip, markEdgeAt_strip]

theorem walkFrom_strip (raw : List Element) (i : Nat) :
    ((walkFrom raw i).raw).map stripDecor = raw.map stripDecor := by
  rw [walkFrom]
  exact walkAux_strip _ _ i _ raw i 1000 40 []

/-! ### Classification of the backward walks -/

theorem walkAux_classified (bC bN : Option String) (sI : Nat) :
    ∀ (fuel : Nat) (raw : List Element) (curIdx z t : Nat) (m : List String),
      graphInv raw →
      (∃ el, raw.get? curIdx = some el ∧
        ((∃ nm sw bc, el.data = .rootData nm sw bc ∧ 1 ≤ fuel)
         ∨ (∃ n sw, el.data = .nodeData n sw
             ∧ 2 + countBelow raw n.chat_depth ≤ fuel))) →
      (walkAux bC bN sI fuel raw curIdx z t m).reason = .noIncoming
      ∨ (walkAux bC bN sI fuel raw curIdx z t m).reason = .otherCheckpoint := by
  intro fuel
  induction fuel with
  | zero =>
    intro raw curIdx z t m _ hcur
    rcases hcur with ⟨el, _, ⟨nm, sw, bc, hd, hf⟩ | ⟨n, sw, hd, hf⟩⟩
    · omega
    · omega
  | succ f ih =>
    intro raw curIdx z t m hG hcur
    obtain ⟨el, hel, hshape⟩ := hcur
    have helD : elemAtD raw curIdx = el := by
      unfold elemAtD
      exact getD_of_get? raw curIdx _ el hel
    rw [walkAux]
    by_cases hbk : (curIdx != sI && dataIsBookmark (elemAtD raw curIdx).data) = true
    · rw [if_pos hbk]
      exact Or.inr rfl
    · rw [if_neg hbk]
      rcases hshape with ⟨nm, sw, bc, hd, _⟩ | ⟨n, sw, hd, hfuel⟩
      · rw [helD, hd]
        simp only [dataId]
        rcases hinc : findIncomingIdx raw "root" with _ | j
        · exact Or.inl rfl
        · exfalso
          rcases findIdxA_some _ raw j hinc with ⟨ej, hej, hpj⟩
          simp only [Bool.and_eq_true, beq_iff_eq] at hpj
          rcases hG.1 ej (List.get?_mem hej) with ⟨hg, _⟩ | ⟨hg, ed, hde⟩
          · rw [hg] at hpj
            exact absurd hpj.1 (by simp)
          · have htgt : ed.target = "root" := by
              have h2 := hpj.2
              rw [hde] at h2
              simpa [dataTarget] using h2
            have hpr : (ed.source, ed.target) ∈ edgePairs raw :=
              List.mem_map.mpr
                ⟨ed, edgeData_mem_edgeDatas raw ej ed (List.get?_mem hej) hde, rfl⟩
            exact (hG.2.2.1 (ed.source, ed.target) hpr).1 htgt
      · rw [helD, hd]
        simp only [dataId]
        rcases hinc : findIncomingIdx raw n.id with _ | j
        · exact Or.inl rfl
        · dsimp only
          rcases findIdxA_some _ raw j hinc with ⟨ej, hej, hpj⟩
          simp only [Bool.and_eq_true, beq_iff_eq] at hpj
          have hejD : elemAtD raw j = ej := by
            unfold elemAtD
            exact getD_of_get? raw j _ ej hej
          rcases hG.1 ej (List.get?_mem hej) with ⟨hg, _⟩ | ⟨hg, ed, hde⟩
          · rw [hg] at hpj
            exact absurd hpj.1 (by simp)
          · have htgt : ed.target = n.id := by
              have h2 := hpj.2
              rw [hde] at h2
              simpa [dataTarget] using h2
            have hpr : (ed.source, ed.target) ∈ edgePairs raw :=
              List.mem_map.mpr
                ⟨ed, edgeData_mem_edgeDatas raw ej ed (List.get?_mem hej) hde, rfl⟩
            rw [hejD, hde]
            simp only [dataId]
            have hstrip : (setBorderAll (markEdgeAt raw j bC bN t z) n.id bC).map
                stripDecor = raw.map stripDecor := by
              rw [setBorderAll_strip, markEdgeAt_strip]
            have hGX := graphInv_of_strip_eq _ raw hstrip hG
            have hskels := nodeSkels_of_strip_eq _ raw hstrip
            have hskn : (n.id, n.chat_depth, n.isBookmark) ∈ nodeSkels raw :=
              (mem_nodeSkels raw _).mpr
                ⟨n, nodeData_mem_nodeDatas raw el n sw (List.get?_mem hel) hd, rfl⟩
            obtain ⟨hne, ⟨nit, hnit, hnitid⟩, hsrc⟩ := hG.2.2.1 _ hpr
            have hfind : (findNodeIdx
                (setBorderAll (markEdgeAt raw j bC bN t z) n.id bC)
                ed.source).isSome = true := by
              rcases hsrc with hroot | ⟨ni, hni, hniid⟩
              · have hrc : rootCount (setBorderAll (markEdgeAt raw j bC bN t z)
                    n.id bC) = 1 := hGX.2.1
                have hpos : 0 < rootCount (setBorderAll (markEdgeAt raw j bC bN t z)
                    n.id bC) := by omega
                rcases rootCount_pos_mem _ hpos with
                  ⟨er, her, nm2, sw2, bc2, hder⟩
                have hgr : er.group = "nodes" := by
                  rcases hGX.1 er her with ⟨hgg, _⟩ | ⟨hgg, ed2, hde2⟩
                  · exact hgg
                  · rw [hder] at hde2
                    exact absurd hde2 (by simp)
                refine findIdxA_isSome_of_mem _ _ er her ?_
                simp only [Prod.fst] at hroot
                simp [hgr, hder, dataId, hroot]
              · rw [← hskels] at hni
                rcases (mem_nodeSkels _ ni).mp hni with ⟨n2, hn2, hsk⟩
                rcases mem_nodeDatas _ n2 hn2 with ⟨e2, he2, sw2, hde2⟩
                have hg2 : e2.group = "nodes" := by
                  rcases hGX.1 e2 he2 with ⟨hgg, _⟩ | ⟨hgg, ed2, hdd⟩
                  · exact hgg
                  · rw [hde2] at hdd
                    exact absurd hdd (by simp)
                refine findIdxA_isSome_of_mem _ _ e2 he2 ?_
                have hid2 : n2.id = ed.source := by
                  have h1 := congrArg Prod.fst hsk
                  simp only [Prod.fst] at h1 hniid
                  rw [h1, hniid]
                simp [hg2, hde2, dataId, hid2]
            rcases hfn : findNodeIdx
                (setBorderAll (markEdgeAt raw j bC bN t z) n.id bC)
                ed.source with _ | k
            · rw [hfn] at hfind
              simp at hfind
            · rcases findIdxA_some _ _ k hfn with ⟨ek, hek, hpk⟩
              simp only [Bool.and_eq_true, beq_iff_eq] at hpk
              rcases hGX.1 ek (List.get?_mem hek) with
                ⟨hgk, ⟨nm3, sw3, bc3, hdk⟩ | ⟨n3, sw3, hdk⟩⟩ | ⟨hgk, ed3, hdk⟩
              · exact ih _ k (z + 1) (min (t + 1) 60) (m ++ [ed.id]) hGX
                  ⟨ek, hek, Or.inl ⟨nm3, sw3, bc3, hdk, by omega⟩⟩
              · have hidk : n3.id = ed.source := by
                  have h2 := hpk.2
                  rw [hdk] at h2
                  simpa [dataId] using h2
                have hsk3 : (n3.id, n3.chat_depth, n3.isBookmark) ∈ nodeSkels raw := by
                  rw [← hskels]
                  exact (mem_nodeSkels _ _).mpr
                    ⟨n3, nodeData_mem_nodeDatas _ ek n3 sw3 (List.get?_mem hek) hdk,
                      rfl⟩
                have hdlt : n3.chat_depth < n.chat_depth := by
                  have h4 := hG.2.2.2.1 (ed.source, ed.target) hpr
                    (n3.id, n3.chat_depth, n3.isBookmark) hsk3
                    (n.id, n.chat_depth, n.isBookmark) hskn hidk htgt.symm
                  simpa using h4
                have hcx : countBelow (setBorderAll (markEdgeAt raw j bC bN t z)
                    n.id bC) n3.chat_depth = countBelow raw n3.chat_depth := by
                  unfold countBelow
                  rw [hskels]
                have hstrict : countBelow raw n3.chat_depth
                    < countBelow raw n.chat_depth := by
                  unfold countBelow
                  refine filter_length_strict _ _ ?_ (nodeSkels raw)
                    (n3.id, n3.chat_depth, n3.isBookmark) hsk3 ?_ ?_
                  · intro x hx
                    simp only [decide_eq_true_eq] at hx ⊢
                    omega
                  · simp only [decide_eq_true_eq]
                    simpa using hdlt
                  · simp
                exact ih _ k (z + 1) (min (t + 1) 60) (m ++ [ed.id]) hGX
                  ⟨ek, hek, Or.inr ⟨n3, sw3, hdk, by omega⟩⟩
              · rw [hgk] at hpk
                exact absurd hpk.1 (by simp)

theorem mem_bookmarkIndices (raw : List Element) (i : Nat)
    (hi : i ∈ bookmarkIndices raw) :
    ∃ e, raw.get? i = some e ∧ e.group = "nodes"
      ∧ dataIsBookmark e.data = true := by
  unfold bookmarkIndices at hi
  rcases List.mem_filterMap.mp hi with ⟨p, hp, hf⟩
  by_cases hc : (p.2.group == "nodes" && dataIsBookmark p.2.data) = true
  · rw [if_pos hc] at hf
    injection hf with hf
    subst hf
    simp only [Bool.and_eq_true, beq_iff_eq] at hc
    have hg := List.mem_enum_iff_getElem?.mp hp
    refine ⟨p.2, ?_, hc.1, hc.2⟩
    rw [List.get?_eq_getElem?]
    exact hg
  · rw [if_neg hc] at hf
    exact absurd hf (by simp)

theorem walkFrom_classified (raw : List Element) (i : Nat) (hG : graphInv raw)
    (hstart : ∃ el, raw.get? i = some el ∧ el.group = "nodes"
      ∧ dataIsBookmark el.data = true) :
    (walkFrom raw i).reason = .noIncoming
    ∨ (walkFrom raw i).reason = .otherCheckpoint := by
  obtain ⟨el, hel, hg, hbm⟩ := hstart
  rcases hG.1 el (List.get?_mem hel) with
    ⟨_, ⟨nm, sw, bc, hd⟩ | ⟨n, sw, hd⟩⟩ | ⟨hge, ed, hd⟩
  · rw [hd] at hbm
    simp [dataIsBookmark] at hbm
  · rw [walkFrom]
    apply walkAux_classified _ _ i _ raw i 1000 40 [] hG
    refine ⟨el, hel, Or.inr ⟨n, sw, hd, ?_⟩⟩
    have h1 : countBelow raw n.chat_depth ≤ (nodeSkels raw).length := by
      unfold countBelow
      exact List.length_filter_le _ _
    have h2 := nodeSkels_length_le raw
    omega
  · rw [hg] at hge
    exact absurd hge (by simp)

theorem walkReasons_classified (raw : List Element) (hG : graphInv raw) :
    ∀ r ∈ walkReasons raw, r = .noIncoming ∨ r = .otherCheckpoint := by
  unfold walkReasons
  refine (foldl_inv (fun acc : List Element × List StopReason =>
      acc.1.map stripDecor = raw.map stripDecor
      ∧ ∀ r ∈ acc.2, r = StopReason.noIncoming ∨ r = StopReason.otherCheckpoint)
    _ (bookmarkIndices raw) (raw, []) ⟨rfl, by simp⟩ ?_).2
  intro acc i hi ha
  constructor
  · rw [walkFrom_strip, ha.1]
  · intro r hr
    rcases List.mem_append.mp hr with hr | hr
    · exact ha.2 r hr
    · rcases List.mem_singleton.mp hr with rfl
      have hGa : graphInv acc.1 := graphInv_of_strip_eq _ raw ha.1 hG
      rcases mem_bookmarkIndices raw i hi with ⟨el, hel, hg, hbm⟩
      have h1 : (acc.1.map stripDecor).get? i = (raw.map stripDecor).get? i := by
        rw [ha.1]
      rw [List.get?_eq_getElem?, List.get?_eq_getElem?, List.getElem?_map,
        List.getElem?_map] at h1
      rw [List.get?_eq_getElem?] at hel
      rw [hel] at h1
      rcases hel2 : acc.1[i]? with _ | el2
      · rw [hel2] at h1
        exact absurd h1 (by simp)
      · rw [hel2] at h1
        have hseq : stripDecor el2 = stripDecor el := by
          simpa using h1
        have hgrp2 : el2.group = "nodes" := by
          have hgg := congrArg Element.group hseq
          simp only [stripDecor_group] at hgg
          rw [hgg, hg]
        have hbm2 : dataIsBookmark el2.data = true := by
          have hb2 := congrArg (fun x => dataIsBookmark x.data) hseq
          simp only [dataIsBookmark_strip] at hb2
          rw [hb2, hbm]
        refine walkFrom_classified acc.1 i hGa ⟨el2, ?_, hgrp2, hbm2⟩
        rw [List.get?_eq_getElem?]
        exact hel2

/-! ### The flattened member files of one depth -/

theorem flatFiles_groupInsert (gs : List (String × List GroupEntry)) (key : String)
    (e : GroupEntry) :
    (flatFiles (groupInsert gs key e)).Perm (flatFiles gs ++ [e.file_name]) := by
  induction gs with
  | nil =>
    simp [groupInsert, flatFiles]
  | cons p t ih =>
    obtain ⟨k, es⟩ := p
    by_cases h : k = key
    · simp only [groupInsert, h, if_true, flatFiles]
      rw [List.map_append]
      simp only [List.map_cons, List.map_nil]
      rw [List.append_assoc, List.append_assoc]
      exact List.Perm.append_left _ (List.perm_append_comm.trans
        (List.Perm.append_right _ (List.Perm.refl _)))
    · simp only [groupInsert, h, if_false, flatFiles]
      rw [List.append_assoc]
      exact List.Perm.append_left _ ih

theorem flatFiles_groupFold (l : List (Nat × DepthEntry)) :
    ∀ acc, (flatFiles (l.foldl groupStep acc)).Perm
      (flatFiles acc ++ l.filterMap (fun p =>
        match p.2.message.mes with
        | some _ => some p.2.file_name
        | none => none)) := by
  induction l with
  | nil =>
    intro acc
    simp
  | cons p t ih =>
    intro acc
    rw [List.foldl_cons, List.filterMap_cons]
    rcases hm : p.2.message.mes with _ | s
    · have hstep : groupStep acc p = acc := by simp [groupStep, hm]
      rw [hstep]
      exact ih acc
    · have hstep : groupStep acc p = groupInsert acc (normalizeNewlines s)
          ⟨p.2.file_name, p.1, { p.2.message with mes := some (normalizeNewlines s) }⟩ := by
        simp [groupStep, hm]
      rw [hstep]
      refine (ih _).trans ?_
      refine (List.Perm.append_right _ (flatFiles_groupInsert acc
        (normalizeNewlines s) _)).trans ?_
      rw [List.append_assoc]
      rfl

theorem flatFiles_groups (msgs : List DepthEntry) :
    (flatFiles (groupMessagesByContent msgs)).Perm
      (msgs.enum.filterMap (fun p =>
        match p.2.message.mes with
        | some _ => some p.2.file_name
        | none => none)) := by
  have h := flatFiles_groupFold msgs.enum []
  simpa [flatFiles] using h

theorem liveFiles_sublist (msgs : List DepthEntry) :
    ∀ (k : Nat), ((List.enumFrom k msgs).filterMap (fun p =>
        match p.2.message.mes with
        | some _ => some p.2.file_name
        | none => none)).Sublist (msgs.map DepthEntry.file_name) := by
  induction msgs with
  | nil =>
    intro k
    simp
  | cons m t ih =>
    intro k
    rw [List.enumFrom, List.filterMap_cons, List.map_cons]
    rcases hm : m.message.mes with _ | s
    · exact (ih (k + 1)).cons m.file_name
    · exact (ih (k + 1)).cons₂ m.file_name

theorem flatFiles_nodup (msgs : List DepthEntry)
    (h : (msgs.map DepthEntry.file_name).Nodup) :
    (flatFiles (groupMessagesByContent msgs)).Nodup :=
  (flatFiles_groups msgs).nodup_iff.mpr ((liveFiles_sublist msgs 0).nodup h)

theorem flatFiles_subset (msgs : List DepthEntry) (f : String)
    (hf : f ∈ flatFiles (groupMessagesByContent msgs)) :
    f ∈ msgs.map DepthEntry.file_name :=
  (liveFiles_sublist msgs 0).mem ((flatFiles_groups msgs).mem_iff.mp hf)

theorem flatFiles_cons (tg : String × List GroupEntry)
    (gs : List (String × List GroupEntry)) :
    flatFiles (tg :: gs) = tg.2.map (fun ge => ge.file_name) ++ flatFiles gs := rfl

/-! ### The structural invariant through the member loop -/

theorem processMember_previousNodes (messageId : Nat) (nodeId text : String)
    (allSwipes uniqueSwipes : List String) (node : NodeData)
    (su : BGState × List String) (ge : GroupEntry) :
    (processMember messageId nodeId text allSwipes uniqueSwipes node su ge).1.previousNodes
      = assocSet su.1.previousNodes ge.file_name nodeId := by
  unfold processMember
  dsimp only
  rw [(processMemberSwipes_frame messageId text allSwipes uniqueSwipes node
    ((lookupA su.1.previousNodes ge.file_name).getD "undefined") su).2.1]

theorem processMember_struct (d0files : List String) (d : Nat) (nodeId text : String)
    (aS uS : List String) (node : NodeData) (k0 : Nat)
    (hid : node.id = nodeId) (hkid : nodeId = "message" ++ Nat.repr k0)
    (hdep : node.chat_depth = d)
    (su : BGState × List String) (ge : GroupEntry) (R2 : List String)
    (hgd0 : ge.file_name ∈ d0files)
    (hnotin : ge.file_name ∉ R2)
    (hM : mInv d0files d node k0 (ge.file_name :: R2) su.1) :
    mInv d0files d node k0 R2 (processMember d nodeId text aS uS node su ge).1 := by
  obtain ⟨hG, hk1, hkle, hclass, hpn, hcov⟩ := hM
  have hrootid : node.id ≠ "root" := by
    rw [hid, hkid]
    exact mkNodeId_ne_root _
  have hsome := hcov ge.file_name hgd0
  rcases hlk : lookupA su.1.previousNodes ge.file_name with _ | p
  · rw [hlk] at hsome
    simp at hsome
  · have hpd : (lookupA su.1.previousNodes ge.file_name).getD "undefined" = p := by
      rw [hlk]
      rfl
    have hsrc := hpn ge.file_name p hlk
    have hsrcS : p = "root" ∨ ((∃ n0 ∈ nodeDatas su.1.cyElements, n0.id = p)
        ∧ ∀ n0 ∈ nodeDatas su.1.cyElements, n0.id = p → n0.chat_depth < d) := by
      rcases hsrc with h | ⟨hw, hle, hlt⟩
      · exact Or.inl h
      · exact Or.inr ⟨hw, hlt (List.mem_cons_self _ _)⟩
    have hpne : p ≠ node.id := by
      rcases hsrcS with rfl | ⟨⟨n0, hn0, hn0id⟩, hlt⟩
      · exact fun hcontra => hrootid hcontra.symm
      · intro hpe
        rcases hclass n0 hn0 with ⟨j, hj1, hjk, hjid, _⟩ | ⟨heq, _⟩
        · rw [hjid] at hn0id
          rw [hpe, hid, hkid] at hn0id
          have := mkNodeId_injective j k0 hn0id
          omega
        · have hcd := hlt n0 hn0 hn0id
          rw [heq, hdep] at hcd
          omega
    -- skeleton-level helpers over the old element list
    have hclassS : ∀ sk ∈ nodeSkels su.1.cyElements, sk.1 = node.id →
        sk = (node.id, node.chat_depth, node.isBookmark) := by
      intro sk hsk hsk1
      rcases (mem_nodeSkels _ sk).mp hsk with ⟨n1, hn1, hskeq⟩
      rcases hclass n1 hn1 with ⟨j, hj1, hjk, hjid, _⟩ | ⟨rfl, _⟩
      · exfalso
        have : n1.id = sk.1 := congrArg Prod.fst hskeq
        rw [hjid, hsk1, hid, hkid] at this
        have := mkNodeId_injective j k0 this
        omega
      · rw [← hskeq]
    have hclassD : ∀ sk ∈ nodeSkels su.1.cyElements, sk.2.1 ≤ d := by
      intro sk hsk
      rcases (mem_nodeSkels _ sk).mp hsk with ⟨n1, hn1, hskeq⟩
      have hdd : sk.2.1 = n1.chat_depth := by
        rw [← hskeq]
      rcases hclass n1 hn1 with ⟨j, _, _, _, hdle⟩ | ⟨rfl, _⟩
      · rw [hdd]; exact hdle
      · rw [hdd, hdep]
    have hclassNR : ∀ sk ∈ nodeSkels su.1.cyElements, sk.1 ≠ "root" := by
      intro sk hsk
      rcases (mem_nodeSkels _ sk).mp hsk with ⟨n1, hn1, hskeq⟩
      have hdd : n1.id = sk.1 := congrArg Prod.fst hskeq
      rcases hclass n1 hn1 with ⟨j, _, _, hjid, _⟩ | ⟨rfl, _⟩
      · rw [← hdd, hjid]
        exact mkNodeId_ne_root _
      · rw [← hdd]
        exact hrootid
    have hsrcP : p = "root" ∨ ((∃ ni ∈ nodeSkels su.1.cyElements, ni.1 = p)
        ∧ ∀ sk ∈ nodeSkels su.1.cyElements, sk.1 = p → sk.2.1 < d) := by
      rcases hsrcS with h | ⟨⟨n0, hn0, hn0id⟩, hlt⟩
      · exact Or.inl h
      · refine Or.inr ⟨⟨(n0.id, n0.chat_depth, n0.isBookmark),
          (mem_nodeSkels _ _).mpr ⟨n0, hn0, rfl⟩, hn0id⟩, ?_⟩
        intro sk hsk hsk1
        rcases (mem_nodeSkels _ sk).mp hsk with ⟨n1, hn1, hskeq⟩
        have hdd : sk.2.1 = n1.chat_depth := by rw [← hskeq]
        have hii : n1.id = sk.1 := congrArg Prod.fst hskeq
        rw [hdd]
        exact hlt n1 hn1 (by rw [hii, hsk1])
    -- element-list equations
    have hcy := processMember_cyElements d nodeId text aS uS node su ge
    rw [hpd] at hcy
    have hPN := processMember_previousNodes d nodeId text aS uS node su ge
    have hkA : (processMember d nodeId text aS uS node su ge).1.keyCounter
        = (processMemberSwipes d text aS uS node
            ((lookupA su.1.previousNodes ge.file_name).getD "undefined")
            su).1.keyCounter + 1 := rfl
    have hkB := (processMemberSwipes_frame d text aS uS node
      ((lookupA su.1.previousNodes ge.file_name).getD "undefined") su).2.2.2
    have hkcge : su.1.keyCounter < (processMember d nodeId text aS uS node su
        ge).1.keyCounter := by
      rw [hkA]
      omega
    have hND : nodeDatas (processMember d nodeId text aS uS node su ge).1.cyElements
        = nodeDatas su.1.cyElements ++ [node] := by
      rw [hcy, nodeDatas_append]
      rfl
    have hNS : nodeSkels (processMember d nodeId text aS uS node su ge).1.cyElements
        = nodeSkels su.1.cyElements ++ [(node.id, node.chat_depth, node.isBookmark)] := by
      rw [hcy, nodeSkels_append]
      rfl
    have hEP : edgePairs (processMember d nodeId text aS uS node su ge).1.cyElements
        = edgePairs su.1.cyElements ++ [(p, nodeId)] := by
      rw [hcy, edgePairs_append]
      rfl
    have hRC : rootCount (processMember d nodeId text aS uS node su ge).1.cyElements
        = rootCount su.1.cyElements := by
      rw [hcy, rootCount_append]
      rfl
    refine ⟨⟨?_, ?_, ?_, ?_, ?_, ?_⟩, hk1, by omega, ?_, ?_, ?_⟩
    · -- well-formedness
      rw [hcy]
      intro e he
      rcases List.mem_append.mp he with he | he
      · exact hG.1 e he
      · rcases List.mem_cons.mp he with rfl | he2
        · exact Or.inl ⟨rfl, Or.inr ⟨node, none, rfl⟩⟩
        · rcases List.mem_singleton.mp he2 with rfl
          exact Or.inr ⟨rfl, _, rfl⟩
    · -- single root
      rw [hRC]
      exact hG.2.1
    · -- edge targets and sources
      rw [hEP, hNS]
      intro pr hpr
      rcases List.mem_append.mp hpr with hpr | hpr
      · obtain ⟨h1, ⟨ni, hni, hni1⟩, h3⟩ := hG.2.2.1 pr hpr
        refine ⟨h1, ⟨ni, List.mem_append_left _ hni, hni1⟩, ?_⟩
        rcases h3 with h3 | ⟨ni2, hni2, hni21⟩
        · exact Or.inl h3
        · exact Or.inr ⟨ni2, List.mem_append_left _ hni2, hni21⟩
      · rcases List.mem_singleton.mp hpr with rfl
        refine ⟨?_, ⟨(node.id, node.chat_depth, node.isBookmark),
          List.mem_append_right _ (List.mem_singleton.mpr rfl), by
            simpa using hid⟩, ?_⟩
        · simp only [Prod.snd]
          rw [hkid]
          exact mkNodeId_ne_root _
        · rcases hsrcP with h | ⟨⟨ni, hni, hni1⟩, _⟩
          · exact Or.inl h
          · exact Or.inr ⟨ni, List.mem_append_left _ hni, hni1⟩
    · -- depth increases along every edge
      rw [hEP, hNS]
      intro pr hpr a ha b hb ha1 hb1
      rcases List.mem_append.mp hpr with hpr | hpr
      · -- an old edge
        obtain ⟨hne1, ⟨ni, hni, hni1⟩, hsrc3⟩ := hG.2.2.1 pr hpr
        rcases List.mem_append.mp hb with hb | hb
        · rcases List.mem_append.mp ha with ha | ha
          · exact hG.2.2.2.1 pr hpr a ha b hb ha1 hb1
          · -- a is the new skeleton: the old edge leaves this group's node
            exfalso
            rcases List.mem_singleton.mp ha with rfl
            simp only [Prod.fst] at ha1
            rcases hsrc3 with hsrc3 | ⟨na, hna, hna1⟩
            · rw [← ha1] at hsrc3
              exact hrootid hsrc3
            · have hna2 := hclassS na hna (by rw [hna1, ← ha1])
              have hb2 := hclassD b hb
              have := hG.2.2.2.1 pr hpr na hna ni hni hna1 hni1
              rw [hna2] at this
              simp only [Prod.snd, Prod.fst] at this
              have hnid : ni.2.1 ≤ d := hclassD ni hni
              rw [hdep] at this
              omega
        · -- b is the new skeleton: the old edge targets this group's node
          rcases List.mem_singleton.mp hb with rfl
          simp only [Prod.fst] at hb1
          have hni2 := hclassS ni hni (by rw [hni1, ← hb1])
          rcases List.mem_append.mp ha with ha | ha
          · have := hG.2.2.2.1 pr hpr a ha ni hni ha1 hni1
            rw [hni2] at this
            simpa using this
          · exfalso
            rcases List.mem_singleton.mp ha with rfl
            simp only [Prod.fst] at ha1
            rcases hsrc3 with hsrc3 | ⟨na, hna, hna1⟩
            · rw [← ha1] at hsrc3
              exact hrootid hsrc3
            · have hna2 := hclassS na hna (by rw [hna1, ← ha1])
              have := hG.2.2.2.1 pr hpr na hna ni hni hna1 hni1
              rw [hna2, hni2] at this
              simp at this
      · -- the new edge (p, nodeId)
        rcases List.mem_singleton.mp hpr with rfl
        simp only [Prod.fst, Prod.snd] at ha1 hb1
        have hbD : b.2.1 = d := by
          rcases List.mem_append.mp hb with hb | hb
          · have := hclassS b hb (by rw [hb1, hid])
            rw [this]
            simp only [Prod.snd]
            exact hdep
          · rcases List.mem_singleton.mp hb with rfl
            simpa using hdep
        have haD : a.2.1 < d := by
          rcases List.mem_append.mp ha with ha | ha
          · rcases hsrcP with h | ⟨_, hlt⟩
            · exfalso
              rw [h] at ha1
              exact hclassNR a ha ha1
            · exact hlt a ha ha1
          · exfalso
            rcases List.mem_singleton.mp ha with rfl
            simp only [Prod.fst] at ha1
            exact hpne (by rw [← ha1])
        omega
    · -- depth is a function of the node id
      rw [hNS]
      intro a ha b hb hab
      rcases List.mem_append.mp ha with ha | ha
      · rcases List.mem_append.mp hb with hb | hb
        · exact hG.2.2.2.2.1 a ha b hb hab
        · rcases List.mem_singleton.mp hb with rfl
          simp only [Prod.fst] at hab
          have := hclassS a ha hab
          rw [this]
      · rcases List.mem_singleton.mp ha with rfl
        rcases List.mem_append.mp hb with hb | hb
        · simp only [Prod.fst] at hab
          have := hclassS b hb (by rw [← hab])
          rw [this]
        · rcases List.mem_singleton.mp hb with rfl
          rfl
    · -- every node id is an edge target
      rw [hNS, hEP]
      intro ni hni
      rcases List.mem_append.mp hni with hni | hni
      · obtain ⟨pr, hpr, hpr2⟩ := hG.2.2.2.2.2 ni hni
        exact ⟨pr, List.mem_append_left _ hpr, hpr2⟩
      · rcases List.mem_singleton.mp hni with rfl
        refine ⟨(p, nodeId), List.mem_append_right _ (List.mem_singleton.mpr rfl), ?_⟩
        simp only [Prod.snd]
        rw [hid]
    · -- node classification
      rw [hND]
      intro n hn
      rcases List.mem_append.mp hn with hn | hn
      · rcases hclass n hn with ⟨j, hj1, hjk, hjid, hjd⟩ | ⟨rfl, hlt⟩
        · exact Or.inl ⟨j, hj1, hjk, hjid, hjd⟩
        · exact Or.inr ⟨rfl, by omega⟩
      · rcases List.mem_singleton.mp hn with rfl
        exact Or.inr ⟨rfl, by omega⟩
    · -- previousNodes clause
      unfold pnClauseM
      rw [hPN, hND]
      intro f q hq
      by_cases hf : f = ge.file_name
      · subst hf
        rw [lookupA_assocSet_self] at hq
        injection hq with hq
        subst hq
        refine Or.inr ⟨⟨node, List.mem_append_right _ (List.mem_singleton.mpr rfl),
          hid⟩, ?_, ?_⟩
        · intro n hn hnid
          rcases List.mem_append.mp hn with hn | hn
          · rcases hclass n hn with ⟨j, _, hjk, hjid, _⟩ | ⟨rfl, _⟩
            · exfalso
              rw [hjid, hkid] at hnid
              have := mkNodeId_injective j k0 hnid
              omega
            · rw [hdep]
          · rcases List.mem_singleton.mp hn with rfl
            rw [hdep]
        · intro hmem
          exact absurd hmem hnotin
      · rw [lookupA_assocSet_ne _ _ _ _ hf] at hq
        rcases hpn f q hq with hroot | ⟨⟨n0, hn0, hn0id⟩, hle, hlt⟩
        · exact Or.inl hroot
        · refine Or.inr ⟨⟨n0, List.mem_append_left _ hn0, hn0id⟩, ?_, ?_⟩
          · intro n hn hnid
            rcases List.mem_append.mp hn with hn | hn
            · exact hle n hn hnid
            · rcases List.mem_singleton.mp hn with rfl
              rw [hdep]
          · intro hfR2 n hn hnid
            have hlt2 := hlt (List.mem_cons_of_mem _ hfR2)
            rcases List.mem_append.mp hn with hn | hn
            · exact hlt2 n hn hnid
            · exfalso
              rcases List.mem_singleton.mp hn with rfl
              rcases hclass n0 hn0 with ⟨j, _, hjk, hjid, _⟩ | ⟨heq, _⟩
              · rw [hjid] at hn0id
                rw [← hnid, hid, hkid] at hn0id
                have := mkNodeId_injective j k0 hn0id
                omega
              · have hfin := hlt2 n0 hn0 hn0id
                rw [heq, hdep] at hfin
                omega
    · -- depth-0 coverage
      intro f hf
      rw [hPN]
      exact isSome_lookupA_assocSet _ _ _ _ (hcov f hf)

theorem memberFold_struct (d0files : List String) (d : Nat) (nodeId text : String)
    (aS uS : List String) (node : NodeData) (k0 : Nat)
    (hid : node.id = nodeId) (hkid : nodeId = "message" ++ Nat.repr k0)
    (hdep : node.chat_depth = d) :
    ∀ (members : List GroupEntry) (R2 : List String) (su : BGState × List String),
      ((members.map (fun ge => ge.file_name)) ++ R2).Nodup →
      (∀ ge ∈ members, ge.file_name ∈ d0files) →
      mInv d0files d node k0 ((members.map (fun ge => ge.file_name)) ++ R2) su.1 →
      mInv d0files d node k0 R2
        ((members.foldl (processMember d nodeId text aS uS node) su)).1
  | [], R2, su, _, _, hM => hM
  | ge :: t, R2, su, hnd, hd0, hM => by
    rw [List.foldl_cons]
    rw [List.map_cons, List.cons_append] at hnd hM
    have hsplit := List.nodup_cons.mp hnd
    refine memberFold_struct d0files d nodeId text aS uS node k0 hid hkid hdep
      t R2 _ ?_ (fun g hg => hd0 g (List.mem_cons_of_mem _ hg)) ?_
    · exact hsplit.2
    · exact processMember_struct d0files d nodeId text aS uS node k0 hid hkid hdep
        su ge _ (hd0 ge (List.mem_cons_self _ _)) hsplit.1 hM

theorem gInv_to_mInv (d0files : List String) (d : Nat) (R : List String)
    (s : BGState) (node : NodeData)
    (hid : node.id = "message" ++ Nat.repr s.keyCounter)
    (hdep : node.chat_depth = d)
    (h : gInv d0files d R s) : mInv d0files d node s.keyCounter R s := by
  obtain ⟨hG, hk1, hclass, hpn, hcov⟩ := h
  refine ⟨hG, hk1, Nat.le_refl _, ?_, hpn, hcov⟩
  intro n hn
  rcases hclass n hn with ⟨j, hj1, hjk, hjid, hjd⟩
  exact Or.inl ⟨j, hj1, hjk, hjid, hjd⟩

theorem mInv_to_gInv (d0files : List String) (d : Nat) (R : List String)
    (s : BGState) (node : NodeData) (k0 : Nat)
    (hid : node.id = "message" ++ Nat.repr k0)
    (hdep : node.chat_depth = d)
    (h : mInv d0files d node k0 R s) : gInv d0files d R s := by
  obtain ⟨hG, hk1, hkle, hclass, hpn, hcov⟩ := h
  refine ⟨hG, by omega, ?_, hpn, hcov⟩
  intro n hn
  rcases hclass n hn with ⟨j, hj1, hjk, hjid, hjd⟩ | ⟨heq, hlt⟩
  · exact ⟨j, hj1, by omega, hjid, hjd⟩
  · refine ⟨k0, hk1, hlt, ?_, ?_⟩
    · rw [heq]
      exact hid
    · rw [heq, hdep]

theorem processGroup_struct (d0files : List String) (d : Nat)
    (lens : List (String × Nat)) (amb : Nat → ℚ) (s : BGState)
    (tg : String × List GroupEntry) (R2 : List String)
    (hnd : (tg.2.map (fun ge => ge.file_name) ++ R2).Nodup)
    (hd0 : ∀ ge ∈ tg.2, ge.file_name ∈ d0files)
    (hg : gInv d0files d (tg.2.map (fun ge => ge.file_name) ++ R2) s) :
    gInv d0files d R2 (processGroup d lens amb s tg) := by
  unfold processGroup
  dsimp only
  have hid := createNode_id ("message" ++ Nat.repr s.keyCounter) d tg.1 tg.2 lens
    amb s.rngCtr
  have hdep := createNode_chat_depth ("message" ++ Nat.repr s.keyCounter) d tg.1
    tg.2 lens amb s.rngCtr
  apply mInv_to_gInv d0files d R2 _ _ s.keyCounter hid hdep
  apply memberFold_struct d0files d _ tg.1 _ _ _ s.keyCounter hid rfl hdep tg.2 R2
    _ hnd hd0
  exact gInv_to_mInv d0files d _ s _ hid hdep hg

theorem groupFold_struct (d0files : List String) (d : Nat)
    (lens : List (String × Nat)) (amb : Nat → ℚ) :
    ∀ (gs : List (String × List GroupEntry)) (R2 : List String) (s : BGState),
      (flatFiles gs ++ R2).Nodup →
      (∀ f ∈ flatFiles gs, f ∈ d0files) →
      gInv d0files d (flatFiles gs ++ R2) s →
      gInv d0files d R2 (gs.foldl (processGroup d lens amb) s)
  | [], R2, s, _, _, h => h
  | tg :: t, R2, s, hnd, hd0, h => by
    rw [List.foldl_cons]
    rw [flatFiles_cons, List.append_assoc] at hnd h
    refine groupFold_struct d0files d lens amb t R2 _ ?_ ?_ ?_
    · exact hnd.of_append_right
    · intro f hf
      exact hd0 f (by rw [flatFiles_cons]; exact List.mem_append_right _ hf)
    · refine processGroup_struct d0files d lens amb s tg (flatFiles t ++ R2) hnd ?_ h
      intro ge hge
      refine hd0 ge.file_name ?_
      rw [flatFiles_cons]
      exact List.mem_append_left _ (List.mem_map.mpr ⟨ge, hge, rfl⟩)

theorem structInv_to_gInv (d0files : List String) (d : Nat) (R : List String)
    (s : BGState) (h : structInv d0files d s) : gInv d0files d R s := by
  obtain ⟨hG, hk1, hclass, hpn, hcov⟩ := h
  refine ⟨hG, hk1, ?_, ?_, hcov⟩
  · intro n hn
    rcases hclass n hn with ⟨j, hj1, hjk, hjid, hjd⟩
    exact ⟨j, hj1, hjk, hjid, by omega⟩
  · intro f p hp
    rcases hpn f p hp with hroot | ⟨hw, hlt⟩
    · exact Or.inl hroot
    · exact Or.inr ⟨hw, fun n hn hnid => by have := hlt n hn hnid; omega,
        fun _ n hn hnid => hlt n hn hnid⟩

theorem gInv_to_structInv (d0files : List String) (d : Nat) (s : BGState)
    (h : gInv d0files d [] s) : structInv d0files (d + 1) s := by
  obtain ⟨hG, hk1, hclass, hpn, hcov⟩ := h
  refine ⟨hG, hk1, ?_, ?_, hcov⟩
  · intro n hn
    rcases hclass n hn with ⟨j, hj1, hjk, hjid, hjd⟩
    exact ⟨j, hj1, hjk, hjid, by omega⟩
  · intro f p hp
    rcases hpn f p hp with hroot | ⟨hw, hle, _⟩
    · exact Or.inl hroot
    · exact Or.inr ⟨hw, fun n hn hnid => by have := hle n hn hnid; omega⟩

theorem depthStep_struct (d0files : List String) (lens : List (String × Nat))
    (amb : Nat → ℚ) (d : Nat) (g : List DepthEntry) (s : BGState)
    (hnd : (g.map DepthEntry.file_name).Nodup)
    (hd0 : ∀ e ∈ g, e.file_name ∈ d0files)
    (h : structInv d0files d s) :
    structInv d0files (d + 1)
      ((groupMessagesByContent g).foldl (processGroup d lens amb) s) := by
  apply gInv_to_structInv
  refine groupFold_struct d0files d lens amb (groupMessagesByContent g) [] s
    ?_ ?_ ?_
  · simpa using flatFiles_nodup g hnd
  · intro f hf
    rcases List.mem_map.mp (flatFiles_subset g f hf) with ⟨e, he, rfl⟩
    exact hd0 e he
  · exact structInv_to_gInv d0files d _ s h

theorem depthFold_struct (d0files : List String) (lens : List (String × Nat))
    (amb : Nat → ℚ) :
    ∀ (chats : List (List DepthEntry)) (k : Nat) (s : BGState),
      structInv d0files k s →
      (∀ g ∈ chats, (g.map DepthEntry.file_name).Nodup
        ∧ ∀ e ∈ g, e.file_name ∈ d0files) →
      structInv d0files (k + chats.length)
        ((List.enumFrom k chats).foldl (fun s2 p =>
          (groupMessagesByContent p.2).foldl (processGroup p.1 lens amb) s2) s)
  | [], k, s, h, _ => by simpa using h
  | g :: t, k, s, h, hall => by
    rw [List.enumFrom, List.foldl_cons]
    have hstep := depthStep_struct d0files lens amb k g s
      (hall g (List.mem_cons_self _ _)).1 (hall g (List.mem_cons_self _ _)).2 h
    have hrec := depthFold_struct d0files lens amb t (k + 1) _ hstep
      (fun g2 hg2 => hall g2 (List.mem_cons_of_mem _ hg2))
    have harith : (k + 1) + t.length = k + (g :: t).length := by
      simp [List.length_cons]
      omega
    rw [harith] at hrec
    exact hrec

theorem initFold_values (first : List DepthEntry) :
    ∀ q ∈ (first.foldl (fun pn mo => assocSet pn mo.file_name "root") []),
      q.2 = "root" := by
  refine foldl_inv (fun pn : List (String × String) => ∀ q ∈ pn, q.2 = "root")
    _ first [] (by simp) ?_
  intro a b _ ha
  exact assocSet_values (fun v => v = "root") a b.file_name "root" ha rfl

theorem initFold_covers (first : List DepthEntry) :
    ∀ (acc : List (String × String)) (f : String),
      (f ∈ first.map DepthEntry.file_name ∨ (lookupA acc f).isSome = true) →
      (lookupA (first.foldl (fun pn mo => assocSet pn mo.file_name "root") acc)
        f).isSome = true := by
  induction first with
  | nil =>
    intro acc f h
    rcases h with h | h
    · simp at h
    · exact h
  | cons mo t ih =>
    intro acc f h
    rw [List.foldl_cons]
    apply ih
    rcases h with h | h
    · rw [List.map_cons] at h
      rcases List.mem_cons.mp h with rfl | h2
      · right
        rw [lookupA_assocSet_self]
        rfl
      · exact Or.inl h2
    · exact Or.inr (isSome_lookupA_assocSet _ _ _ _ h)

theorem initial_structInv (allChats : List (List DepthEntry))
    (first : List DepthEntry) :
    structInv (first.map DepthEntry.file_name) 0 (initialBGState allChats first) := by
  refine ⟨⟨?_, rfl, ?_, ?_, ?_, ?_⟩, Nat.le_refl 1, ?_, ?_, ?_⟩
  · intro e he
    rcases List.mem_singleton.mp he with rfl
    exact Or.inl ⟨rfl, Or.inl ⟨rootNodeName allChats, none, none, rfl⟩⟩
  · intro pr hpr
    simp [initialBGState, edgePairs, edgeDatas] at hpr
  · intro pr hpr
    simp [initialBGState, edgePairs, edgeDatas] at hpr
  · intro a ha
    simp [initialBGState, nodeSkels, nodeDatas] at ha
  · intro ni hni
    simp [initialBGState, nodeSkels, nodeDatas] at hni
  · intro n hn
    simp [initialBGState, nodeDatas] at hn
  · intro f p hp
    have hmem := lookupA_mem _ f p hp
    exact Or.inl (initFold_values first (f, p) hmem)
  · intro f hf
    exact initFold_covers first [] f (Or.inl hf)

theorem buildGraphCore_struct (allChats : List (List DepthEntry))
    (lens : List (String × Nat)) (amb : Nat → ℚ) (first : List DepthEntry)
    (hall : ∀ g ∈ allChats, (g.map DepthEntry.file_name).Nodup
      ∧ ∀ e ∈ g, e.file_name ∈ first.map DepthEntry.file_name) :
    structInv (first.map DepthEntry.file_name) allChats.length
      (buildGraphCore allChats lens amb first) := by
  unfold buildGraphCore
  have h := depthFold_struct (first.map DepthEntry.file_name) lens amb allChats 0
    (initialBGState allChats first) (initial_structInv allChats first) hall
  simpa using h

/-! ### The attachment pass preserves the skeleton -/

theorem attachSwipeData_edgeDatas (psd : List (String × SwipeData))
    (es : List Element) :
    edgeDatas (attachSwipeData psd es) = edgeDatas es := by
  unfold attachSwipeData edgeDatas
  rw [List.filterMap_map]
  apply List.filterMap_congr
  intro e _
  by_cases hg : (e.group == "nodes") = true
  · simp only [hg, if_true, Function.comp]
    rcases hl : lookupA psd (dataId e.data) with _ | sw
    · rfl
    · cases e.data <;> rfl
  · simp [Function.comp, hg]

theorem attachSwipeData_rootCount (psd : List (String × SwipeData))
    (es : List Element) :
    rootCount (attachSwipeData psd es) = rootCount es := by
  unfold attachSwipeData rootCount
  rw [List.filter_map, List.length_map]
  congr 1
  apply List.filter_congr
  intro e _
  by_cases hg : (e.group == "nodes") = true
  · simp only [hg, if_true, Function.comp]
    rcases hl : lookupA psd (dataId e.data) with _ | sw
    · rfl
    · cases e.data <;> rfl
  · simp [Function.comp, hg]

theorem attachSwipeData_wf (psd : List (String × SwipeData)) (es : List Element)
    (hw : wfElems es) : wfElems (attachSwipeData psd es) := by
  intro e' he'
  unfold attachSwipeData at he'
  rcases List.mem_map.mp he' with ⟨e, he, rfl⟩
  by_cases hgb : (e.group == "nodes") = true
  · rw [if_pos hgb]
    rcases hl : lookupA psd (dataId e.data) with _ | sw
    · exact hw e he
    · rcases hw e he with ⟨hg, ⟨nm, sw0, bc, hd⟩ | ⟨n, sw0, hd⟩⟩ | ⟨hg, ed, hd⟩
      · exact Or.inl ⟨hg, Or.inl ⟨nm, some sw, bc, by rw [hd]⟩⟩
      · exact Or.inl ⟨hg, Or.inr ⟨n, some sw, by rw [hd]⟩⟩
      · exfalso
        rw [hg] at hgb
        simp at hgb
  · rw [if_neg hgb]
    exact hw e he

theorem attachSwipeData_graphInv (psd : List (String × SwipeData))
    (es : List Element) (hG : graphInv es) : graphInv (attachSwipeData psd es) := by
  obtain ⟨hw, hr, h3, h4, h5, h6⟩ := hG
  have hns : nodeSkels (attachSwipeData psd es) = nodeSkels es := by
    unfold nodeSkels
    rw [attachSwipeData_nodeDatas]
  have hep : edgePairs (attachSwipeData psd es) = edgePairs es := by
    unfold edgePairs
    rw [attachSwipeData_edgeDatas]
  refine ⟨attachSwipeData_wf psd es hw, ?_, ?_, ?_, ?_, ?_⟩
  · rw [attachSwipeData_rootCount]
    exact hr
  · rw [hns, hep]
    exact h3
  · rw [hns, hep]
    exact h4
  · rw [hns]
    exact h5
  · rw [hns, hep]
    exact h6

/-! ### `buildGraph` output satisfies the graph invariant -/

theorem buildGraph_graphInv (h : List (String × List Message)) (ck : String)
    (amb : Nat → ℚ) (hN : (h.map Prod.fst).Nodup) (raw : List Element)
    (hb : buildGraph (preprocessChatSessions h)
        (h.map (fun p => (p.1, p.2.length))) ck amb = some raw) :
    graphInv raw := by
  unfold buildGraph at hb
  rcases hpp : preprocessChatSessions h with _ | ⟨first, rest⟩
  · rw [hpp] at hb
    simp at hb
  · rw [hpp] at hb
    dsimp only at hb
    injection hb with hb
    have hall : ∀ g ∈ first :: rest, (g.map DepthEntry.file_name).Nodup
        ∧ ∀ e ∈ g, e.file_name ∈ first.map DepthEntry.file_name := by
      intro g hg
      rcases List.mem_iff_get?.mp hg with ⟨i, hi⟩
      have hgd : (preprocessChatSessions h).getD i [] = g := by
        rw [hpp]
        exact getD_of_get? _ i [] g hi
      constructor
      · rw [← hgd]
        exact depth_files_nodup h hN i
      · intro e he
        rw [← hgd] at he
        have := depth_file_in_first h i e he
        rw [hpp] at this
        simpa using this
    have hs := buildGraphCore_struct (first :: rest)
      (h.map (fun p => (p.1, p.2.length))) amb first hall
    rw [← hb]
    exact attachSwipeData_graphInv _ _ hs.1

theorem highlight_strip (raw : List Element) :
    (highlightCheckpointPaths raw).map stripDecor = raw.map stripDecor := by
  unfold highlightCheckpointPaths
  refine foldl_inv (fun acc : List Element =>
    acc.map stripDecor = raw.map stripDecor) _ (bookmarkIndices raw) raw rfl ?_
  intro a i _ ha
  rw [walkFrom_strip, ha]

theorem transGen_measure {α : Type} (r : α → α → Prop) (f : α → Nat)
    (hf : ∀ a b, r a b → f a < f b) (a b : α)
    (hab : Relation.TransGen r a b) : f a < f b := by
  induction hab with
  | single h1 => exact hf _ _ h1
  | tail _ h3 ih => exact Nat.lt_trans ih (hf _ _ h3)

/-- C4.  For every input whose log names are distinct (JS object keys are
necessarily distinct) and on which construction succeeds (see C3 for the
failing inputs), the output element list contains exactly one root
element, no edge targets the root, every node id is the target of at
least one edge, every edge runs from a strictly smaller depth to a
strictly larger depth, and consequently the edge relation is acyclic. -/
theorem output_graph_dag (h : List (String × List Message)) (ck : String)
    (amb : Nat → ℚ) (hN : (h.map Prod.fst).Nodup) (out : List Element)
    (hout : convertToCytoscapeElements h ck amb = some out) :
    rootCount out = 1
    ∧ (∀ pr ∈ edgePairs out, pr.2 ≠ "root")
    ∧ (∀ ni ∈ nodeSkels out, ∃ pr ∈ edgePairs out, pr.2 = ni.1)
    ∧ (∀ pr ∈ edgePairs out, ∀ a ∈ nodeSkels out, ∀ b ∈ nodeSkels out,
        a.1 = pr.1 → b.1 = pr.2 → a.2.1 < b.2.1)
    ∧ (∀ x : String, ¬ Relation.TransGen (fun u v => (u, v) ∈ edgePairs out) x x) := by
  unfold convertToCytoscapeElements at hout
  dsimp only at hout
  rcases hb : buildGraph (preprocessChatSessions h)
      (h.map (fun p => (p.1, p.2.length))) ck amb with _ | raw
  · rw [hb] at hout
    simp at hout
  · rw [hb] at hout
    dsimp only at hout
    injection hout with hout
    have hG := buildGraph_graphInv h ck amb hN raw hb
    have hGout : graphInv out := by
      rw [← hout]
      exact graphInv_of_strip_eq _ raw (highlight_strip raw) hG
    obtain ⟨hw, hr, h3, h4, h5, h6⟩ := hGout
    refine ⟨hr, fun pr hpr => (h3 pr hpr).1, h6, h4, ?_⟩
    intro x hx
    have key : ∀ u v, (u, v) ∈ edgePairs out →
        (fun id => match (nodeSkels out).find? (fun sk => sk.1 == id) with
         | some sk => sk.2.1 + 1
         | none => 0) u
        < (fun id => match (nodeSkels out).find? (fun sk => sk.1 == id) with
           | some sk => sk.2.1 + 1
           | none => 0) v := by
      intro u v huv
      obtain ⟨_, ⟨nb, hnb, hnb1⟩, _⟩ := h3 (u, v) huv
      dsimp only
      have hsomev : ((nodeSkels out).find? (fun sk => sk.1 == v)).isSome = true :=
        List.find?_isSome.mpr ⟨nb, hnb, by simp [hnb1]⟩
      rcases hskv : (nodeSkels out).find? (fun sk => sk.1 == v) with _ | skb
      · rw [hskv] at hsomev
        simp at hsomev
      · have hskb1 : skb.1 = v := by
          have := List.find?_some hskv
          simpa using this
        have hskbm := List.mem_of_find?_eq_some hskv
        rcases hsku : (nodeSkels out).find? (fun sk => sk.1 == u) with _ | ska
        · rw [hsku, hskv]
          show 0 < skb.2.1 + 1
          omega
        · have hska1 : ska.1 = u := by
            have := List.find?_some hsku
            simpa using this
          have hskam := List.mem_of_find?_eq_some hsku
          have := h4 (u, v) huv ska hskam skb hskbm hska1 hskb1
          rw [hsku, hskv]
          show ska.2.1 + 1 < skb.2.1 + 1
          omega
    have := transGen_measure _ _ key x x hx
    omega

/-- Witness for C4 on `exHistTwo`: the hypotheses are discharged
concretely and the single-root conclusion is read back. -/
theorem output_graph_dag_witness :
    (exHistTwo.map Prod.fst).Nodup
    ∧ ∃ out, convertToCytoscapeElements exHistTwo "w4" exAmb = some out
      ∧ rootCount out = 1 :=
  ⟨by decide,
   (convertToCytoscapeElements exHistTwo "w4" exAmb).getD [],
   by decide,
   (output_graph_dag exHistTwo "w4" exAmb (by decide) _ (by decide)).1⟩

/-- C2 (amended).  Every backward walk the highlighter performs — one per
checkpoint wrapper, in list order, threading the mutated element list —
terminates cleanly: its stop reason is either `noIncoming` (the root was
reached: no edge targets the current node) or `otherCheckpoint` (the walk
reached a node of a *different* checkpoint, whose own trace claims the
remainder); it never runs out of fuel and never fails to find an edge's
source wrapper.  The claim's further assertion that no edge is ever
marked twice is false: walks of two distinct checkpoints that share an
ancestor chain both mark the shared edges (the later walk overwrites the
earlier decoration) — see the counterexample. -/
theorem checkpoint_walks_classified (h : List (String × List Message))
    (ck : String) (amb : Nat → ℚ) (raw : List Element)
    (hN : (h.map Prod.fst).Nodup)
    (hb : buildGraph (preprocessChatSessions h)
        (h.map (fun p => (p.1, p.2.length))) ck amb = some raw) :
    ∀ r ∈ walkReasons raw,
      r = StopReason.noIncoming ∨ r = StopReason.otherCheckpoint :=
  walkReasons_classified raw (buildGraph_graphInv h ck amb hN raw hb)

/-- Witness for C2 (amended) on `exHistCp`: two checkpoints, both of
whose walks stop at the root. -/
theorem checkpoint_walks_classified_witness :
    (exHistCp.map Prod.fst).Nodup
    ∧ ∃ raw, buildGraph (preprocessChatSessions exHistCp)
        (exHistCp.map (fun p => (p.1, p.2.length))) "w2" exAmb = some raw
      ∧ ∀ r ∈ walkReasons raw,
          r = StopReason.noIncoming ∨ r = StopReason.otherCheckpoint :=
  ⟨by decide,
   (buildGraph (preprocessChatSessions exHistCp)
     (exHistCp.map (fun p => (p.1, p.2.length))) "w2" exAmb).getD [],
   by decide,
   checkpoint_walks_classified exHistCp "w2" exAmb _ (by decide) (by decide)⟩

/-- C2 counterexample: on `exHistCp` the two checkpoints sit on sibling
branches that share the depth-0 edge `edge1`; the walk of the first
checkpoint marks `edge3` then `edge1`, and the walk of the second marks
`edge4` then the *same* `edge1`, so one edge is colored by the walks of
two distinct checkpoints, refuting "never colors the same edge twice". -/
theorem highlight_double_mark_counterexample :
    ∃ raw, buildGraph (preprocessChatSessions exHistCp)
        (exHistCp.map (fun p => (p.1, p.2.length))) "w2" exAmb = some raw
      ∧ (bookmarkIndices raw).length = 2
      ∧ walkMarkLists raw = [["edge3", "edge1"], ["edge4", "edge1"]]
      ∧ "edge1" ∈ (walkMarkLists raw).getD 0 []
      ∧ "edge1" ∈ (walkMarkLists raw).getD 1 [] :=
  ⟨(buildGraph (preprocessChatSessions exHistCp)
     (exHistCp.map (fun p => (p.1, p.2.length))) "w2" exAmb).getD [],
   by decide, by decide, by decide, by decide, by decide⟩
